import Mathlib

/-!
Verification of the QuaPy aggregative-quantification core
(`quapy/method/aggregative.py`, `quapy/model_selection.py`) against its
natural-language specification.

The embedding works over exact rationals (`ℚ`): the source's `float`
arithmetic is modelled exactly, so "sums to 1 within tolerance 1e-9"
becomes "sums to 1 exactly".  Prevalence vectors over `n` classes are
functions `Fin n → ℚ`, confusion matrices are `Matrix (Fin n) (Fin n) ℚ`,
and per-instance posterior matrices are lists of rows `List (Fin n → ℚ)`.
Division by zero follows Lean's `x / 0 = 0` convention; the places where
the source would divide by zero (producing `nan`) are tracked by explicit
hypotheses in the theorems, and noted at each counterexample.
-/

/-- A valid prevalence vector: non-negative entries summing to 1
(spec §3 "Prevalence Vector"; entries `≤ 1` follows). -/
def IsPrevVector {n : ℕ} (v : Fin n → ℚ) : Prop :=
  (∀ i, 0 ≤ v i) ∧ (∑ i, v i) = 1

instance {n : ℕ} (v : Fin n → ℚ) : Decidable (IsPrevVector v) := by
  unfold IsPrevVector; infer_instance

/-- A row of a posterior-probability matrix: non-negative entries summing
to 1 (spec §3 "Classification Predictions"). -/
def IsPostRow {n : ℕ} (row : Fin n → ℚ) : Prop :=
  (∀ i, 0 ≤ row i) ∧ (∑ i, row i) = 1

instance {n : ℕ} (row : Fin n → ℚ) : Decidable (IsPostRow row) := by
  unfold IsPostRow; infer_instance

/-- Column-stochastic matrix: every column sums to 1
(spec §3 "Misclassification/Confusion Estimate"). -/
def ColStochastic {n : ℕ} (A : Matrix (Fin n) (Fin n) ℚ) : Prop :=
  ∀ j, (∑ i, A i j) = 1

instance {n : ℕ} (A : Matrix (Fin n) (Fin n) ℚ) : Decidable (ColStochastic A) := by
  unfold ColStochastic; infer_instance

/-- `np.clip(x, 0, 1)`. -/
def clip01 (x : ℚ) : ℚ := max 0 (min 1 x)

/-- `v / v.sum()`: L1 normalization of a non-negative vector. -/
def normalizeVec {n : ℕ} (v : Fin n → ℚ) : Fin n → ℚ :=
  fun i => v i / (∑ j, v j)

/-- Modelled from the spec: `quapy.functional.prevalence_from_labels` is not
part of the sources; spec §4.2 (CC): "aggregate = normalized histogram of
crisp predicted labels".  Classes are canonically `Fin n` (the ordered class
list). -/
def prevalence_from_labels {n : ℕ} (preds : List (Fin n)) : Fin n → ℚ :=
  fun c => (preds.count c : ℚ) / (preds.length : ℚ)

/-- Modelled from the spec: `quapy.functional.prevalence_from_probabilities`
(with `binarize=False`) is not part of the sources; spec §4.2 (PCC):
"aggregate sums ... posterior probabilities" normalized per instance count,
i.e. the column mean of the posterior matrix. -/
def prevalence_from_probabilities {n : ℕ} (P : List (Fin n → ℚ)) : Fin n → ℚ :=
  fun c => (P.map (fun row => row c)).sum / (P.length : ℚ)

/-- `CC.aggregate` (aggregative.py line 317): prevalence of predicted labels. -/
def CC_aggregate {n : ℕ} (preds : List (Fin n)) : Fin n → ℚ :=
  prevalence_from_labels preds

/-- `PCC.aggregate` (aggregative.py line 418): expected prevalence from posteriors. -/
def PCC_aggregate {n : ℕ} (P : List (Fin n → ℚ)) : Fin n → ℚ :=
  prevalence_from_probabilities P

/-- `np.linalg.solve A b` for a nonsingular `A` (computable form:
`det⁻¹ • adjugate A *ᵥ b`, which equals `A⁻¹ *ᵥ b`). -/
def linSolve {n : ℕ} (A : Matrix (Fin n) (Fin n) ℚ) (b : Fin n → ℚ) : Fin n → ℚ :=
  (A.det)⁻¹ • (A.adjugate.mulVec b)

/-- `ACC.solve_adjustment` (aggregative.py lines 377-396): solve `A·x = b`;
on success clip to `[0,1]` and renormalize; if `np.linalg.solve` raises
`LinAlgError` (exact arithmetic: `det A = 0`), return `b` unchanged. -/
def solve_adjustment {n : ℕ} (A : Matrix (Fin n) (Fin n) ℚ) (b : Fin n → ℚ) :
    Fin n → ℚ :=
  if A.det = 0 then b
  else normalizeVec (fun i => clip01 (linSolve A b i))

/-- `ACC.aggregate` (aggregative.py lines 373-375) with fitted confusion
estimate `A`. -/
def ACC_aggregate {n : ℕ} (A : Matrix (Fin n) (Fin n) ℚ) (preds : List (Fin n)) :
    Fin n → ℚ :=
  solve_adjustment A (CC_aggregate preds)

/-- `PACC.aggregate` (aggregative.py lines 452-454) with fitted confusion
estimate `A`. -/
def PACC_aggregate {n : ℕ} (A : Matrix (Fin n) (Fin n) ℚ) (P : List (Fin n → ℚ)) :
    Fin n → ℚ :=
  solve_adjustment A (PCC_aggregate P)

/-- `ACC.getPteCondEstim` (aggregative.py lines 359-371): entry `(i,j)` is the
estimate of `P(pred = i | true = j)`.  `conf` is the transposed confusion
count matrix (`conf i j` = number of positions with true label `j` and
predicted label `i`); each column is divided by its own sum, and a column
whose sum is zero instead gets a `1` on the diagonal. -/
def ACC_getPteCondEstim {n : ℕ} (y yhat : List (Fin n)) :
    Matrix (Fin n) (Fin n) ℚ :=
  let conf : Matrix (Fin n) (Fin n) ℚ :=
    Matrix.of fun i j => ((y.zip yhat).count (j, i) : ℚ)
  Matrix.of fun i j =>
    if (∑ k, conf k j) = 0 then (if i = j then 1 else 0)
    else conf i j / (∑ k, conf k j)

/-- `PACC.getPteCondEstim` (aggregative.py lines 456-467): starts from the
identity, replaces row `j` by the mean posterior of the instances whose true
label is `j` whenever at least one such instance exists, then transposes.
Entry `(i,j)` of the result is row `j` of the (pre-transpose) matrix at
coordinate `i`. -/
def PACC_getPteCondEstim {n : ℕ} (y : List (Fin n)) (P : List (Fin n → ℚ)) :
    Matrix (Fin n) (Fin n) ℚ :=
  Matrix.of fun i j =>
    let sel := ((y.zip P).filter (fun p => decide (p.1 = j))).map Prod.snd
    if sel.length = 0 then (if i = j then 1 else 0)
    else (sel.map (fun row => row i)).sum / (sel.length : ℚ)

-- EMQ ------------------------------------------------------------------------

/-- Modelled from the spec: `quapy.error.mae` is not part of the sources;
spec §4.3: "the mean absolute change between consecutive estimates". -/
def mae {n : ℕ} (p q : Fin n → ℚ) : ℚ := (∑ i, |p i - q i|) / (n : ℚ)

/-- E-step of `EMQ.EM` (aggregative.py lines 527-528): reweight each
instance's posterior by `qs / Ptr` per class and renormalize each row. -/
def emEstep {n : ℕ} (Ptr qs : Fin n → ℚ) (Px : List (Fin n → ℚ)) :
    List (Fin n → ℚ) :=
  Px.map (fun row =>
    let w : Fin n → ℚ := fun k => (qs k / Ptr k) * row k
    fun j => w j / (∑ k, w k))

/-- M-step of `EMQ.EM` (aggregative.py line 531): column mean of the
reweighted posteriors. -/
def emMstep {n : ℕ} (ps : List (Fin n → ℚ)) : Fin n → ℚ :=
  fun j => (ps.map (fun row => row j)).sum / (ps.length : ℚ)

/-- One iteration of the `EMQ.EM` loop body: E-step then M-step. -/
def emIter {n : ℕ} (Ptr : Fin n → ℚ) (Px : List (Fin n → ℚ))
    (qs : Fin n → ℚ) : Fin n → ℚ :=
  emMstep (emEstep Ptr qs Px)

/-- The sequence of running estimates: `emSeq 0 = tr_prev`,
`emSeq (k+1) = emIter (emSeq k)`. -/
def emSeq {n : ℕ} (Ptr : Fin n → ℚ) (Px : List (Fin n → ℚ)) : ℕ → (Fin n → ℚ)
  | 0 => Ptr
  | k + 1 => emIter Ptr Px (emSeq Ptr Px k)

/-- `EMQ.MAX_ITER` (aggregative.py line 481). -/
def EMQ_MAX_ITER : ℕ := 1000

/-- `EMQ.EPSILON` (aggregative.py line 482): default tolerance `1e-4`. -/
def EMQ_EPSILON : ℚ := 1 / 10000

/-- Result of `EMQ.EM`: the final running estimate, whether the loop exited
through the convergence flag (`converged = false` is exactly the case in
which the source prints the non-convergence warning), and the number of
E/M updates performed. -/
structure EMResult (n : ℕ) where
  prevs : Fin n → ℚ
  converged : Bool
  iters : ℕ

/-- The `while not converged and s < EMQ.MAX_ITER` loop of `EMQ.EM`
(aggregative.py lines 525-537), with `fuel = MAX_ITER - s`.  The source's
`qs_prev_ is not None` guard only excludes `s = 0`, which is subsumed by
`s > 10`; whenever `s ≥ 1`, `qs_prev_` equals the estimate with which the
iteration was entered. -/
def emLoop {n : ℕ} (Ptr : Fin n → ℚ) (Px : List (Fin n → ℚ)) (eps : ℚ) :
    ℕ → ℕ → (Fin n → ℚ) → EMResult n
  | 0, s, qs => ⟨qs, false, s⟩
  | fuel + 1, s, qs =>
    let qs' := emIter Ptr Px qs
    if mae qs' qs < eps ∧ s > 10 then ⟨qs', true, s + 1⟩
    else emLoop Ptr Px eps fuel (s + 1) qs'

/-- `EMQ.EM` (aggregative.py lines 506-542): the running estimate starts as
the training prevalence. -/
def EMQ_EM {n : ℕ} (Ptr : Fin n → ℚ) (Px : List (Fin n → ℚ)) (eps : ℚ) :
    EMResult n :=
  emLoop Ptr Px eps EMQ_MAX_ITER 0 Ptr

-- Threshold-optimization family ----------------------------------------------

/-- Modelled from the spec: `quapy.functional.as_binary_prevalence` is not
part of the sources; it packages a positive-class estimate `p` as the binary
prevalence vector `[1-p, p]`, first clipping `p` to `[0,1]` when
`clip_if_necessary` is set (spec §4.5: "clipped and renormalized";
§4.4 SMM: "clipped to [0,1]"). -/
def as_binary_prevalence (p : ℚ) (clip_if_necessary : Bool) : Fin 2 → ℚ :=
  let p' := if clip_if_necessary then clip01 p else p
  ![1 - p', p']

/-- `ThresholdOptimization._compute_table` (aggregative.py lines 1151-1156)
for the predictions `y_ = (score ≥ t)`: labels are `true` for the positive
class.  Returns `(TP, FP, FN, TN)`. -/
def confusionCounts (scores : List ℚ) (y : List Bool) (t : ℚ) : ℕ × ℕ × ℕ × ℕ :=
  let pairs := scores.zip y
  ((pairs.filter (fun p => decide (t ≤ p.1) && p.2)).length,
   (pairs.filter (fun p => decide (t ≤ p.1) && !p.2)).length,
   (pairs.filter (fun p => !(decide (t ≤ p.1)) && p.2)).length,
   (pairs.filter (fun p => !(decide (t ≤ p.1)) && !p.2)).length)

/-- `ThresholdOptimization._compute_tpr` (aggregative.py lines 1158-1161);
the source calls it with `(TP, FN)`, so it computes `TP / (TP + FN)`,
defaulting to 1 on an empty denominator. -/
def compute_tpr (TP FN : ℕ) : ℚ :=
  if TP + FN = 0 then 1 else (TP : ℚ) / ((TP : ℚ) + (FN : ℚ))

/-- `ThresholdOptimization._compute_fpr` (aggregative.py lines 1163-1166):
`FP / (FP + TN)`, defaulting to 0 on an empty denominator. -/
def compute_fpr (FP TN : ℕ) : ℚ :=
  if FP + TN = 0 then 0 else (FP : ℚ) / ((FP : ℚ) + (TN : ℚ))

/-- `tpr` at a candidate threshold. -/
def tprAt (scores : List ℚ) (y : List Bool) (t : ℚ) : ℚ :=
  let c := confusionCounts scores y t
  compute_tpr c.1 c.2.2.1

/-- `fpr` at a candidate threshold. -/
def fprAt (scores : List ℚ) (y : List Bool) (t : ℚ) : ℚ :=
  let c := confusionCounts scores y t
  compute_fpr c.2.1 c.2.2.2

/-- `np.unique`: sorted distinct values. -/
def uniqueSorted (l : List ℚ) : List ℚ := (l.mergeSort (· ≤ ·)).dedup

/-- `ThresholdOptimization.discard` (aggregative.py lines 1097-1105):
discard candidates with `tpr - fpr == 0`. -/
def discard_default (tpr fpr : ℚ) : Bool := decide (tpr - fpr = 0)

/-- `MS2.discard` (aggregative.py lines 1310-1311): discard candidates with
`tpr - fpr <= 0.25`. -/
def MS2_discard (tpr fpr : ℚ) : Bool := decide (tpr - fpr ≤ 1 / 4)

/-- `ThresholdOptimization._eval_candidate_thresholds` (aggregative.py lines
1108-1141), parametric in the variant's `discard` and `condition`: evaluate
every distinct decision score as a candidate threshold, keep the
non-discarded `(tpr, fpr, threshold)` triples, default to `(1, 0, 0)` when
none survives, and sort by the condition score (ascending). -/
def evalCandidateThresholds (discard : ℚ → ℚ → Bool) (cond : ℚ → ℚ → ℚ)
    (scores : List ℚ) (y : List Bool) : List (ℚ × ℚ × ℚ) :=
  let survivors := (uniqueSorted scores).filterMap (fun t =>
    let tpr := tprAt scores y t
    let fpr := fprAt scores y t
    if discard tpr fpr then none else some (tpr, fpr, t))
  let candidates := if survivors = [] then [(1, 0, 0)] else survivors
  candidates.mergeSort (fun a b => cond a.1 a.2.1 ≤ cond b.1 b.2.1)

/-- `ThresholdOptimization.aggregation_fit` (aggregative.py lines 1168-1172):
keep the best (first after sorting) triple only. -/
def thresholdAggregationFit (discard : ℚ → ℚ → Bool) (cond : ℚ → ℚ → ℚ)
    (scores : List ℚ) (y : List Bool) : ℚ × ℚ × ℚ :=
  (evalCandidateThresholds discard cond scores y).headD (1, 0, 0)

/-- `ThresholdOptimization.aggregate_with_threshold` (aggregative.py lines
1143-1149) for a single `(tpr, fpr, threshold)`: observed positive rate at
the threshold, adjusted by `(rate - fpr) / (tpr - fpr)`, clipped into a
binary prevalence vector. -/
def aggregate_with_threshold (testScores : List ℚ) (tpr fpr t : ℚ) :
    Fin 2 → ℚ :=
  let rate := ((testScores.filter (fun x => decide (t ≤ x))).length : ℚ) /
    (testScores.length : ℚ)
  as_binary_prevalence ((rate - fpr) / (tpr - fpr)) true

/-- `np.median`: with `s` the sorted list, the mean of the two middle
elements (which coincide for odd length). -/
def npMedian (l : List ℚ) : ℚ :=
  let s := l.mergeSort (· ≤ ·)
  (s.getD ((l.length - 1) / 2) 0 + s.getD (l.length / 2) 0) / 2

/-- `MS.aggregate` (aggregative.py lines 1283-1287): adjusted counts for all
retained `(tpr, fpr, threshold)` triples, then the columnwise median.  (For
a single retained triple the source skips the median, which equals the
median of a one-element list.) -/
def MS_aggregate (testScores : List ℚ) (cands : List (ℚ × ℚ × ℚ)) :
    Fin 2 → ℚ :=
  fun i => npMedian (cands.map
    (fun c => aggregate_with_threshold testScores c.1 c.2.1 c.2.2 i))

/-- `T50.condition` (aggregative.py lines 1199-1200). -/
def T50_condition (tpr _fpr : ℚ) : ℚ := |tpr - 1/2|

/-- `MAX.condition` (aggregative.py lines 1223-1225). -/
def MAX_condition (tpr fpr : ℚ) : ℚ := fpr - tpr

/-- `X.condition` (aggregative.py lines 1248-1249). -/
def X_condition (tpr fpr : ℚ) : ℚ := |1 - (tpr + fpr)|

/-- `MS.condition` (aggregative.py lines 1271-1272). -/
def MS_condition (_tpr _fpr : ℚ) : ℚ := 1

-- Distribution-matching family -----------------------------------------------

/-- The first-strict-minimum scan shared by `HDy.aggregate` (aggregative.py
lines 699-705) and the spec-modelled optimizers: `prev_selected` starts as
`None` and is replaced whenever a strictly smaller value appears. -/
def argminScan {α : Type} (f : α → ℚ) (cands : List α) : Option α :=
  (cands.foldl (fun acc c =>
    match acc with
    | none => some (c, f c)
    | some (b, m) => if f c < m then some (c, f c) else some (b, m)) none).map
    Prod.fst

/-- Modelled from the spec: `quapy.functional.prevalence_linspace` with 101
prevalences, 1 repeat and no smoothing is not part of the sources; spec §4.4
(HDy): "linear scan of prevalence values at 1% steps". -/
def prevalence_linspace101 : List ℚ :=
  (List.range 101).map (fun k : ℕ => (k : ℚ) / 100)

/-- `self.bins = np.linspace(10, 110, 11, dtype=int)` (aggregative.py
line 668). -/
def hdyBins : List ℕ := [10, 20, 30, 40, 50, 60, 70, 80, 90, 100, 110]

/-- `HDy.aggregate` (aggregative.py lines 679-708): for each bin count, scan
the 101 prevalence values for the one minimizing the divergence between the
mixture histogram and the test histogram; return the median of the 11
selections as a binary prevalence (no clipping).  The divergence computation
(histogram densities and the Hellinger distance, which involves floating
square roots) is abstracted as the score function `dist : bins → prev → ℚ`;
the selection structure does not depend on its values. -/
def HDy_aggregate (dist : ℕ → ℚ → ℚ) : Fin 2 → ℚ :=
  as_binary_prevalence
    (npMedian (hdyBins.map
      (fun b => (argminScan (dist b) prevalence_linspace101).getD 0)))
    false

/-- `DyS._ternary_search` (aggregative.py lines 734-748): while
`|right - left| ≥ tol`, move one bound a third of the way in; return the
midpoint.  The source's `while` loop is embedded with an explicit fuel
parameter; the range invariant holds for every fuel. -/
def ternarySearch (f : ℚ → ℚ) (tol : ℚ) : ℕ → ℚ → ℚ → ℚ
  | 0, l, r => (l + r) / 2
  | fuel + 1, l, r =>
    if |r - l| < tol then (l + r) / 2
    else
      let lt := l + (r - l) / 3
      let rt := r - (r - l) / 3
      if f lt > f rt then ternarySearch f tol fuel lt r
      else ternarySearch f tol fuel l rt

/-- `DyS.aggregate` (aggregative.py lines 759-770): ternary search on
`[0, 1]` for the divergence minimizer, packaged as a binary prevalence (no
clipping).  The histogram/divergence computation is abstracted as
`f : prev → ℚ` as in `HDy_aggregate`. -/
def DyS_aggregate (f : ℚ → ℚ) (tol : ℚ) (fuel : ℕ) : Fin 2 → ℚ :=
  as_binary_prevalence (ternarySearch f tol fuel 0 1) false

/-- `SMM.aggregate` (aggregative.py lines 797-802): closed-form estimate
from the class-conditional posterior means, clipped into a binary
prevalence. -/
def SMM_aggregate (pxy1Mean pxy0Mean testMean : ℚ) : Fin 2 → ℚ :=
  as_binary_prevalence ((testMean - pxy0Mean) / (pxy1Mean - pxy0Mean)) true

/-- Modelled from the spec: `quapy.functional.normalize_prevalence` (used by
`OneVsAllAggregative.aggregate`, aggregative.py lines 1360-1362) is not part
of the sources; spec §4.6: "L1-normalizes the concatenated positive-class
estimates to sum to 1". -/
def normalize_prevalence {n : ℕ} (v : Fin n → ℚ) : Fin n → ℚ := normalizeVec v

/-- `OneVsAllAggregative.aggregate` (aggregative.py lines 1360-1362):
`pos c` is the positive-class estimate produced by class `c`'s binary
quantifier. -/
def OneVsAll_aggregate {n : ℕ} (pos : Fin n → ℚ) : Fin n → ℚ :=
  normalize_prevalence pos

/-- Modelled from the spec: `quapy.functional.argmin_prevalence` (used by
`DMy.aggregate`, aggregative.py line 906) is not part of the sources; spec
§4.4 (DMy): "aggregate minimizes, via a numeric optimizer over the
probability simplex, the mean divergence across channels".  The numeric
optimizer is modelled as the argmin of the loss over a finite candidate set
of points of the probability simplex. -/
def argmin_prevalence {n : ℕ} (loss : (Fin n → ℚ) → ℚ)
    (cands : List (Fin n → ℚ)) : Fin n → ℚ :=
  (argminScan loss cands).getD (fun _ => 0)

/-- `DMy.aggregate` (aggregative.py lines 886-906) reduced to its search:
the loss abstracts the mean per-channel divergence between the test
histograms and the mixture. -/
def DMy_aggregate {n : ℕ} (loss : (Fin n → ℚ) → ℚ)
    (cands : List (Fin n → ℚ)) : Fin n → ℚ :=
  argmin_prevalence loss cands

-- Grid search (model_selection.py) -------------------------------------------

/-- An entry of `GridSearchQ.param_scores_`: either a numeric score or the
distinct `'timeout'` marker (model_selection.py lines 95-97). -/
inductive ParamScore
  | score : ℚ → ParamScore
  | timeoutMark : ParamScore
deriving DecidableEq

/-- Errors `GridSearchQ.fit` can raise after evaluation: `TimeoutError` when
every configuration timed out (line 102), and the raised `RuntimeWarning`
when refit is requested but the protocol is not an
`OnLabelledCollectionProtocol` (lines 112-113). -/
inductive GSErr
  | allTimedOut : GSErr
  | refitUnsupported : GSErr
deriving DecidableEq

/-- The observable state of a `GridSearchQ` after `fit`: the recorded
per-configuration entries, the selected best (score, params) if any — the
fitted `best_model_` accompanies `best_params_` and is abstracted away —
and whether `fit` returned normally or raised. -/
structure GSFitResult (α : Type) where
  param_scores : List (α × ParamScore)
  best : Option (ℚ × α)
  outcome : Except GSErr Unit

/-- The `param_scores_` entry recorded for one trial result
(model_selection.py lines 95-97). -/
def gsEntry {α : Type} (r : α × Option ℚ) : α × ParamScore :=
  (r.1, match r.2 with
    | some s => ParamScore.score s
    | none => ParamScore.timeoutMark)

/-- The incumbent-best update for one trial result (model_selection.py
lines 90-94). -/
def gsBestStep {α : Type} (b : Option (ℚ × α)) (r : α × Option ℚ) :
    Option (ℚ × α) :=
  match r.2 with
  | some s =>
    match b with
    | none => some (s, r.1)
    | some bb => if s < bb.1 then some (s, r.1) else some bb
  | none => b

/-- The selection loop of `GridSearchQ.fit` (model_selection.py lines
89-97): each trial result is `(params, score)` with `score = none` exactly
when `_delayed_eval` caught the signal-based `TimeoutError` (lines 146-148);
a completed configuration updates the incumbent when its score is strictly
smaller. -/
def gsStep {α : Type} (acc : List (α × ParamScore) × Option (ℚ × α))
    (r : α × Option ℚ) : List (α × ParamScore) × Option (ℚ × α) :=
  match r.2 with
  | some s =>
    (acc.1 ++ [(r.1, ParamScore.score s)],
     match acc.2 with
     | none => some (s, r.1)
     | some b => if s < b.1 then some (s, r.1) else some b)
  | none => (acc.1 ++ [(r.1, ParamScore.timeoutMark)], acc.2)

def gsSelect {α : Type} (results : List (α × Option ℚ)) :
    List (α × ParamScore) × Option (ℚ × α) :=
  results.foldl gsStep ([], none)

/-- `GridSearchQ.fit` after the parallel evaluation (model_selection.py
lines 89-115): select the best completed configuration, raise
`TimeoutError` if there is none, then — with `best_score_`, `best_params_`
and `best_model_` already set — either refit (when the protocol exposes its
labelled collection) or raise the `RuntimeWarning`. -/
def gridSearchFit {α : Type} (results : List (α × Option ℚ))
    (refit onLabelled : Bool) : GSFitResult α :=
  let sel := gsSelect results
  match sel.2 with
  | none => ⟨sel.1, none, Except.error GSErr.allTimedOut⟩
  | some b =>
    if refit && !onLabelled then ⟨sel.1, some b, Except.error GSErr.refitUnsupported⟩
    else ⟨sel.1, some b, Except.ok ()⟩

-- classifier_fit_predict and the capability check ----------------------------

/-- The `predict_on` argument of
`AggregativeQuantifier.classifier_fit_predict` (aggregative.py lines
66-131): `None`, a float, a `LabelledCollection`, an int, or a value of any
other type. -/
inductive PredictOn
  | noneSpec : PredictOn
  | floatSpec : ℚ → PredictOn
  | collection : PredictOn
  | intSpec : ℤ → PredictOn
  | otherType : PredictOn
deriving DecidableEq

/-- The configuration errors `classifier_fit_predict` raises. -/
inductive ConfigErr
  | proportionOutOfRange : ConfigErr
  | needExplicitSet : ConfigErr
  | invalidK : ConfigErr
  | notUnderstood : ConfigErr
deriving DecidableEq

/-- The prediction-generation mode `classifier_fit_predict` ends up in when
it does not raise. -/
inductive FitPredictMode
  | noPredictions : FitPredictMode
  | heldOut : ℚ → FitPredictMode
  | onCollection : FitPredictMode
  | kfcv : ℤ → FitPredictMode
deriving DecidableEq

/-- The fallback `if predict_on is None: predict_on = self.val_split`
(aggregative.py lines 85-86). -/
def effectivePredictOn (predict_on val_split : PredictOn) : PredictOn :=
  match predict_on with
  | PredictOn.noneSpec => val_split
  | PredictOn.floatSpec p => PredictOn.floatSpec p
  | PredictOn.collection => PredictOn.collection
  | PredictOn.intSpec k => PredictOn.intSpec k
  | PredictOn.otherType => PredictOn.otherType

/-- `AggregativeQuantifier.classifier_fit_predict` (aggregative.py lines
66-131), control flow only: a `None` `predict_on` falls back to
`self.val_split`; a float requires `fit_classifier` and `p ∈ (0,1)`; an int
requires `fit_classifier` and `k > 1`; a collection always works; anything
else is not understood.  No aggregation state is touched here (the
aggregation function is fitted separately by `aggregation_fit`). -/
def classifier_fit_predict (fit_classifier : Bool)
    (predict_on val_split : PredictOn) : Except ConfigErr FitPredictMode :=
  match effectivePredictOn predict_on val_split with
  | PredictOn.noneSpec => Except.ok FitPredictMode.noPredictions
  | PredictOn.floatSpec p =>
    if fit_classifier then
      if 0 < p ∧ p < 1 then Except.ok (FitPredictMode.heldOut p)
      else Except.error ConfigErr.proportionOutOfRange
    else Except.error ConfigErr.needExplicitSet
  | PredictOn.collection => Except.ok FitPredictMode.onCollection
  | PredictOn.intSpec k =>
    if fit_classifier then
      if k ≤ 1 then Except.error ConfigErr.invalidK
      else Except.ok (FitPredictMode.kfcv k)
    else Except.error ConfigErr.needExplicitSet
  | PredictOn.otherType => Except.error ConfigErr.notUnderstood

/-- Outcome of `AggregativeSoftQuantifier._check_classifier` (aggregative.py
lines 258-276): use the classifier as-is, wrap it in
`CalibratedClassifierCV(cv=5)` with a warning, or raise the capability
error. -/
inductive CheckOutcome
  | usesClassifier : CheckOutcome
  | wrapsCalibrated5fold : CheckOutcome
  | capabilityFailure : CheckOutcome
deriving DecidableEq

/-- `AggregativeSoftQuantifier._check_classifier` (aggregative.py lines
258-276): if the classifier lacks `predict_proba`, wrap it (with a warning)
when `adapt_if_necessary` holds, otherwise raise. -/
def soft_check_classifier (hasProba adapt_if_necessary : Bool) : CheckOutcome :=
  if hasProba then CheckOutcome.usesClassifier
  else if adapt_if_necessary then CheckOutcome.wrapsCalibrated5fold
  else CheckOutcome.capabilityFailure

/-- `AggregativeSoftQuantifier._classifier_method` (aggregative.py lines
248-256). -/
def soft_classifier_method : String := "predict_proba"

/-- The capability check as performed on the fit path (aggregative.py line
83): `classifier_fit_predict` calls `_check_classifier` with
`adapt_if_necessary = (self._classifier_method() == 'predict_proba')`,
which for every soft quantifier is `True`. -/
def soft_fit_check (hasProba : Bool) : CheckOutcome :=
  soft_check_classifier hasProba (soft_classifier_method == "predict_proba")

-- Basic lemmas ---------------------------------------------------------------

lemma clip01_nonneg (x : ℚ) : 0 ≤ clip01 x := le_max_left _ _

lemma clip01_le_one (x : ℚ) : clip01 x ≤ 1 := by
  unfold clip01
  rcases le_total 1 x with h | h
  · simp [min_eq_left h]
  · simp [min_eq_right h]
    rcases le_total 0 x with h0 | h0 <;> simp [max_eq_right, h, h0, max_le_iff]

lemma clip01_pos_of_pos {x : ℚ} (h : 0 < x) : 0 < clip01 x := by
  unfold clip01
  rcases le_total 1 x with h1 | h1
  · simp [min_eq_left h1]
  · simp [min_eq_right h1, h]

/-- L1 normalization of a non-negative vector with positive total mass is
a valid prevalence vector. -/
lemma normalizeVec_isPrev {n : ℕ} {v : Fin n → ℚ}
    (hnn : ∀ i, 0 ≤ v i) (hpos : 0 < ∑ j, v j) :
    IsPrevVector (normalizeVec v) := by
  constructor
  · intro i
    exact div_nonneg (hnn i) hpos.le
  · unfold normalizeVec
    rw [← Finset.sum_div]
    exact div_self hpos.ne'

/-- Solving then multiplying back: for nonsingular `A`,
`A *ᵥ (linSolve A b) = b`. -/
lemma mulVec_linSolve {n : ℕ} {A : Matrix (Fin n) (Fin n) ℚ} (b : Fin n → ℚ)
    (hdet : A.det ≠ 0) : A.mulVec (linSolve A b) = b := by
  unfold linSolve
  rw [Matrix.mulVec_smul, Matrix.mulVec_mulVec, Matrix.mul_adjugate,
    Matrix.smul_mulVec_assoc, Matrix.one_mulVec, smul_smul,
    inv_mul_cancel₀ hdet, one_smul]

/-- For a column-stochastic matrix, `A *ᵥ x` preserves the total mass. -/
lemma sum_mulVec_colStochastic {n : ℕ} {A : Matrix (Fin n) (Fin n) ℚ}
    (hA : ColStochastic A) (x : Fin n → ℚ) :
    (∑ i, A.mulVec x i) = ∑ j, x j := by
  unfold Matrix.mulVec Matrix.dotProduct
  rw [Finset.sum_comm]
  refine Finset.sum_congr rfl (fun j _ => ?_)
  rw [← Finset.sum_mul, hA j, one_mul]

/-- The exact solution of `A·x = b` for column-stochastic nonsingular `A`
and mass-1 `b` has total mass 1. -/
lemma sum_linSolve {n : ℕ} {A : Matrix (Fin n) (Fin n) ℚ} {b : Fin n → ℚ}
    (hA : ColStochastic A) (hdet : A.det ≠ 0) (hb : (∑ i, b i) = 1) :
    (∑ i, linSolve A b i) = 1 := by
  have h := sum_mulVec_colStochastic hA (linSolve A b)
  rw [mulVec_linSolve b hdet] at h
  rw [← h, hb]

lemma prev_entry_le_one {n : ℕ} {v : Fin n → ℚ} (h : IsPrevVector v) (i : Fin n) :
    v i ≤ 1 := by
  rcases h with ⟨hnn, hsum⟩
  calc v i ≤ ∑ j, v j := Finset.single_le_sum (fun j _ => hnn j) (Finset.mem_univ i)
  _ = 1 := hsum

lemma clip01_eq_self {x : ℚ} (h0 : 0 ≤ x) (h1 : x ≤ 1) : clip01 x = x := by
  unfold clip01
  rw [min_eq_right h1, max_eq_right h0]

lemma exists_pos_of_sum_eq_one {n : ℕ} {v : Fin n → ℚ} (h : (∑ i, v i) = 1) :
    ∃ i, 0 < v i := by
  by_contra hc
  push_neg at hc
  have : (∑ i, v i) ≤ 0 := Finset.sum_nonpos (fun i _ => hc i)
  linarith

lemma sum_clip01_pos {n : ℕ} {v : Fin n → ℚ} (h : (∑ i, v i) = 1) :
    0 < ∑ i, clip01 (v i) := by
  obtain ⟨i, hi⟩ := exists_pos_of_sum_eq_one h
  exact Finset.sum_pos' (fun j _ => clip01_nonneg _)
    ⟨i, Finset.mem_univ i, clip01_pos_of_pos hi⟩

/-- Nonsingular case of `solve_adjustment`: clipped and renormalized, and
the output is a valid prevalence vector. -/
lemma solve_adjustment_nonsingular {n : ℕ} {A : Matrix (Fin n) (Fin n) ℚ}
    {b : Fin n → ℚ} (hA : ColStochastic A) (hb : IsPrevVector b)
    (hdet : A.det ≠ 0) :
    solve_adjustment A b = normalizeVec (fun i => clip01 (linSolve A b i)) ∧
    IsPrevVector (solve_adjustment A b) := by
  have heq : solve_adjustment A b = normalizeVec (fun i => clip01 (linSolve A b i)) := by
    unfold solve_adjustment
    rw [if_neg hdet]
  refine ⟨heq, ?_⟩
  rw [heq]
  exact normalizeVec_isPrev (fun i => clip01_nonneg _)
    (sum_clip01_pos (sum_linSolve hA hdet hb.2))

lemma sum_count_nat {n : ℕ} (l : List (Fin n)) : (∑ c, l.count c) = l.length := by
  induction l with
  | nil => simp
  | cons a t ih =>
    simp only [List.count_cons, List.length_cons, Finset.sum_add_distrib, ih]
    simp [Finset.sum_ite_eq]

lemma CC_isPrev {n : ℕ} (preds : List (Fin n)) (h : preds ≠ []) :
    IsPrevVector (CC_aggregate preds) := by
  have hlen : (0 : ℚ) < (preds.length : ℚ) := by
    have := List.length_pos.mpr h
    exact_mod_cast this
  constructor
  · intro i
    exact div_nonneg (by positivity) hlen.le
  · unfold CC_aggregate prevalence_from_labels
    rw [← Finset.sum_div]
    rw [show (∑ c, ((preds.count c : ℚ))) = ((preds.length : ℚ)) by
      exact_mod_cast congrArg (Nat.cast (R := ℚ)) (sum_count_nat preds)]
    exact div_self hlen.ne'

/-- C4: `ACC.solve_adjustment` never raises: for every (column-stochastic)
confusion matrix `A` and raw prevalence estimate `b`, if the linear system
`A·x = b` is (uniquely) solvable it returns the solution clipped to `[0,1]`
and renormalized to sum to 1 (a valid prevalence vector), and if `A` is
singular it returns `b` itself unchanged; in particular `ACC.aggregate` on a
singular confusion matrix equals the raw CC estimate. -/
theorem C4_solve_adjustment_never_raises :
    ∀ (n : ℕ) (A : Matrix (Fin n) (Fin n) ℚ) (b : Fin n → ℚ),
      ColStochastic A → IsPrevVector b →
      (A.det ≠ 0 →
        A.mulVec (linSolve A b) = b ∧
        solve_adjustment A b = normalizeVec (fun i => clip01 (linSolve A b i)) ∧
        IsPrevVector (solve_adjustment A b)) ∧
      (A.det = 0 → solve_adjustment A b = b) ∧
      (∀ preds : List (Fin n), A.det = 0 →
        ACC_aggregate A preds = CC_aggregate preds) := by
  intro n A b hA hb
  refine ⟨fun hdet => ?_, fun hdet => ?_, fun preds hdet => ?_⟩
  · obtain ⟨h1, h2⟩ := solve_adjustment_nonsingular hA hb hdet
    exact ⟨mulVec_linSolve b hdet, h1, h2⟩
  · unfold solve_adjustment
    rw [if_pos hdet]
  · unfold ACC_aggregate solve_adjustment
    rw [if_pos hdet]

/-- Witness for C4 at the singular column-stochastic matrix
`[[1/2, 1/2], [1/2, 1/2]]` and the valid raw estimate `[1/2, 1/2]`:
the fallback returns the raw estimate unchanged. -/
theorem C4_solve_adjustment_witness :
    solve_adjustment !![(1:ℚ)/2, 1/2; 1/2, 1/2] ![(1:ℚ)/2, 1/2] = ![(1:ℚ)/2, 1/2] := by
  have hdet : (!![(1:ℚ)/2, 1/2; 1/2, 1/2]).det = 0 := by
    rw [Matrix.det_fin_two_of]; norm_num
  have hA : ColStochastic !![(1:ℚ)/2, 1/2; 1/2, 1/2] := by
    intro j; fin_cases j <;> simp [Fin.sum_univ_two]
  have hb : IsPrevVector ![(1:ℚ)/2, 1/2] :=
    ⟨fun i => by fin_cases i <;> norm_num, by simp [Fin.sum_univ_two]; norm_num⟩
  exact (C4_solve_adjustment_never_raises 2 !![(1:ℚ)/2, 1/2; 1/2, 1/2]
    ![(1:ℚ)/2, 1/2] hA hb).2.1 hdet

lemma sum_univ_list_sum {n : ℕ} (L : List (Fin n → ℚ)) :
    (∑ j, (L.map (fun row => row j)).sum) = (L.map (fun row => ∑ j, row j)).sum := by
  induction L with
  | nil => simp
  | cons a t ih => simp [Finset.sum_add_distrib, ih]

lemma PCC_isPrev {n : ℕ} (P : List (Fin n → ℚ)) (hne : P ≠ [])
    (hrows : ∀ row ∈ P, IsPostRow row) : IsPrevVector (PCC_aggregate P) := by
  have hlen : (0 : ℚ) < (P.length : ℚ) := by
    have := List.length_pos.mpr hne
    exact_mod_cast this
  constructor
  · intro i
    refine div_nonneg (List.sum_nonneg ?_) hlen.le
    intro x hx
    obtain ⟨row, hrow, rfl⟩ := List.mem_map.mp hx
    exact (hrows row hrow).1 i
  · unfold PCC_aggregate prevalence_from_probabilities
    rw [← Finset.sum_div, sum_univ_list_sum]
    rw [List.map_congr_left (fun row hr => (hrows row hr).2)]
    simp [List.map_const', hlen.ne']

lemma solve_adjustment_one {n : ℕ} {b : Fin n → ℚ} (hb : IsPrevVector b) :
    solve_adjustment (1 : Matrix (Fin n) (Fin n) ℚ) b = b := by
  unfold solve_adjustment
  rw [if_neg (by simp : ¬(1 : Matrix (Fin n) (Fin n) ℚ).det = 0)]
  have hsolve : linSolve (1 : Matrix (Fin n) (Fin n) ℚ) b = b := by
    unfold linSolve
    simp [Matrix.adjugate_one, Matrix.one_mulVec]
  rw [hsolve]
  have hclip : (fun i => clip01 (b i)) = b := by
    funext i
    exact clip01_eq_self (hb.1 i) (prev_entry_le_one hb i)
  rw [hclip]
  funext i
  unfold normalizeVec
  rw [hb.2, div_one]

/-- C9: if the estimated confusion matrix is the identity, then for every
raw estimate that is a valid prevalence vector, `solve_adjustment` is the
identity; hence `ACC.aggregate` equals the raw CC estimate and
`PACC.aggregate` equals the raw PCC estimate. -/
theorem C9_identity_confusion_is_identity :
    (∀ (n : ℕ) (b : Fin n → ℚ), IsPrevVector b →
      solve_adjustment (1 : Matrix (Fin n) (Fin n) ℚ) b = b) ∧
    (∀ (n : ℕ) (preds : List (Fin n)), preds ≠ [] →
      ACC_aggregate (1 : Matrix (Fin n) (Fin n) ℚ) preds = CC_aggregate preds) ∧
    (∀ (n : ℕ) (P : List (Fin n → ℚ)), P ≠ [] → (∀ row ∈ P, IsPostRow row) →
      PACC_aggregate (1 : Matrix (Fin n) (Fin n) ℚ) P = PCC_aggregate P) := by
  refine ⟨fun n b hb => solve_adjustment_one hb, fun n preds hne => ?_, fun n P hne hrows => ?_⟩
  · exact solve_adjustment_one (CC_isPrev preds hne)
  · exact solve_adjustment_one (PCC_isPrev P hne hrows)

/-- Witness for C9: over two classes, with identity confusion matrix and
raw estimate `[1/3, 2/3]`, the adjustment returns the estimate unchanged;
likewise for `ACC` on the concrete prediction list `[0, 1, 1]`. -/
theorem C9_identity_confusion_witness :
    solve_adjustment (1 : Matrix (Fin 2) (Fin 2) ℚ) ![(1:ℚ)/3, 2/3] = ![(1:ℚ)/3, 2/3] ∧
    ACC_aggregate (1 : Matrix (Fin 2) (Fin 2) ℚ) [0, 1, 1] = CC_aggregate [0, 1, 1] := by
  constructor
  · exact C9_identity_confusion_is_identity.1 2 ![(1:ℚ)/3, 2/3]
      ⟨fun i => by fin_cases i <;> norm_num, by simp [Fin.sum_univ_two]; norm_num⟩
  · exact C9_identity_confusion_is_identity.2.1 2 [0, 1, 1] (by simp)

lemma ACC_getPteCondEstim_col_sum {n : ℕ} (y yhat : List (Fin n)) (j : Fin n) :
    (∑ i, ACC_getPteCondEstim y yhat i j) = 1 := by
  unfold ACC_getPteCondEstim
  simp only [Matrix.of_apply]
  by_cases h : (∑ k, (((y.zip yhat).count (j, k) : ℚ))) = 0
  · simp only [h, if_pos rfl, if_true]
    simp [Finset.sum_ite_eq']
  · simp only [h, if_false]
    rw [← Finset.sum_div]
    exact div_self h

lemma ACC_getPteCondEstim_absent {n : ℕ} (y yhat : List (Fin n)) (j : Fin n)
    (habs : ∀ a ∈ y, a ≠ j) (i : Fin n) :
    ACC_getPteCondEstim y yhat i j = if i = j then 1 else 0 := by
  unfold ACC_getPteCondEstim
  simp only [Matrix.of_apply]
  have hcount : ∀ k, ((y.zip yhat).count (j, k) : ℚ) = 0 := by
    intro k
    have : (j, k) ∉ y.zip yhat := by
      intro hmem
      exact habs j (List.of_mem_zip hmem).1 rfl
    simp [List.count_eq_zero.mpr this]
  simp [hcount]

lemma PACC_getPteCondEstim_col_sum {n : ℕ} (y : List (Fin n))
    (P : List (Fin n → ℚ)) (hrows : ∀ row ∈ P, IsPostRow row) (j : Fin n) :
    (∑ i, PACC_getPteCondEstim y P i j) = 1 := by
  unfold PACC_getPteCondEstim
  simp only [Matrix.of_apply]
  set sel := ((y.zip P).filter (fun p => decide (p.1 = j))).map Prod.snd with hsel
  have hsub : ∀ row ∈ sel, IsPostRow row := by
    intro row hr
    obtain ⟨pair, hpair, rfl⟩ := List.mem_map.mp hr
    exact hrows pair.2 (List.of_mem_zip (List.mem_of_mem_filter hpair)).2
  by_cases h : sel.length = 0
  · simp only [h, if_pos rfl, if_true]
    simp [Finset.sum_ite_eq']
  · simp only [h, if_false]
    rw [← Finset.sum_div, sum_univ_list_sum]
    rw [List.map_congr_left (fun row hr => (hsub row hr).2)]
    have hlen : ((sel.length : ℚ)) ≠ 0 := by
      exact_mod_cast h
    simp [List.map_const', div_self hlen]

/-- C7: every column of the confusion-matrix estimate returned by
`ACC.getPteCondEstim` sums to 1 (a class absent from the true labels yields
an identity column), and every column of `PACC.getPteCondEstim` sums to 1
provided every posterior row sums to 1. -/
theorem C7_getPteCondEstim_column_stochastic :
    (∀ (n : ℕ) (y yhat : List (Fin n)) (j : Fin n),
      (∑ i, ACC_getPteCondEstim y yhat i j) = 1) ∧
    (∀ (n : ℕ) (y yhat : List (Fin n)) (j : Fin n), (∀ a ∈ y, a ≠ j) →
      ∀ i, ACC_getPteCondEstim y yhat i j = if i = j then 1 else 0) ∧
    (∀ (n : ℕ) (y : List (Fin n)) (P : List (Fin n → ℚ)),
      (∀ row ∈ P, IsPostRow row) →
      ∀ j, (∑ i, PACC_getPteCondEstim y P i j) = 1) :=
  ⟨fun _ y yhat j => ACC_getPteCondEstim_col_sum y yhat j,
   fun _ y yhat j habs i => ACC_getPteCondEstim_absent y yhat j habs i,
   fun _ y P hrows j => PACC_getPteCondEstim_col_sum y P hrows j⟩

/-- Witness for C7: concrete two-class data.  For `ACC`, true labels
`[0, 1]` and predictions `[1, 1]`; for `PACC`, true labels `[0]` with the
posterior row `[1/2, 1/2]`; for the absent-class clause, class `1` is
absent from `y = [0]`. -/
theorem C7_getPteCondEstim_witness :
    (∑ i, ACC_getPteCondEstim [(0 : Fin 2), 1] [1, 1] i 0) = 1 ∧
    ACC_getPteCondEstim [(0 : Fin 2)] [0] 0 1 = 0 ∧
    (∑ i, PACC_getPteCondEstim [(0 : Fin 2)] [![(1:ℚ)/2, 1/2]] i 0) = 1 := by
  refine ⟨C7_getPteCondEstim_column_stochastic.1 2 [0, 1] [1, 1] 0, ?_, ?_⟩
  · have h := C7_getPteCondEstim_column_stochastic.2.1 2 [0] [0] 1
      (by intro a ha; simp at ha; simp [ha]) 0
    simpa using h
  · refine C7_getPteCondEstim_column_stochastic.2.2 2 [0] [![(1:ℚ)/2, 1/2]] ?_ 0
    intro row hr
    simp only [List.mem_singleton] at hr
    subst hr
    exact ⟨fun i => by fin_cases i <;> norm_num, by simp [Fin.sum_univ_two]; norm_num⟩

lemma float_branch_err_iff (p : ℚ) :
    (∃ e, (if 0 < p ∧ p < 1 then
        (Except.ok (FitPredictMode.heldOut p) : Except ConfigErr FitPredictMode)
      else Except.error ConfigErr.proportionOutOfRange) = Except.error e) ↔
      ¬(0 < p ∧ p < 1) := by
  split_ifs with h <;> simp [h]

lemma int_branch_err_iff (k : ℤ) :
    (∃ e, (if k ≤ 1 then
        (Except.error ConfigErr.invalidK : Except ConfigErr FitPredictMode)
      else Except.ok (FitPredictMode.kfcv k)) = Except.error e) ↔ k ≤ 1 := by
  split_ifs with h <;> simp [h]

/-- C8: `classifier_fit_predict` raises a configuration error exactly when
the effective `predict_on` (after a `None` falls back to `val_split`) is: a
float with classifier-fitting disabled; a float `p ∉ (0,1)` with fitting
enabled; an int with classifier-fitting disabled; an int `k ≤ 1` with
fitting enabled; or of an unrecognized type.  It performs no fitting of the
aggregation state (the embedding returns only the prediction mode; the
aggregation function is fitted separately by `aggregation_fit`). -/
theorem C8_classifier_fit_predict_config_errors :
    ∀ (fc : Bool) (po vs : PredictOn),
      (∃ e, classifier_fit_predict fc po vs = Except.error e) ↔
      ((∃ p, effectivePredictOn po vs = PredictOn.floatSpec p ∧ fc = false) ∨
       (∃ p, effectivePredictOn po vs = PredictOn.floatSpec p ∧ fc = true ∧
          ¬(0 < p ∧ p < 1)) ∨
       (∃ k, effectivePredictOn po vs = PredictOn.intSpec k ∧ fc = false) ∨
       (∃ k, effectivePredictOn po vs = PredictOn.intSpec k ∧ fc = true ∧
          k ≤ 1) ∨
       effectivePredictOn po vs = PredictOn.otherType) := by
  intro fc po vs
  rcases po with _ | p | _ | k | _ <;> rcases vs with _ | q | _ | m | _ <;>
    cases fc <;>
    simp [classifier_fit_predict, effectivePredictOn, float_branch_err_iff,
      int_branch_err_iff]

/-- C5 (counterexample): a soft-prediction quantifier whose classifier
lacks `predict_proba`, fitted without any explicit permission to wrap the
classifier, does not fail: the fit path of `classifier_fit_predict`
(aggregative.py line 83) passes
`adapt_if_necessary = (self._classifier_method() == 'predict_proba')`,
which is always `True` for a soft quantifier, so the classifier is wrapped
in `CalibratedClassifierCV(cv=5)` with a warning and the capability error
is never raised during `fit`. -/
theorem C5_counterexample_fit_never_fails :
    soft_fit_check false = CheckOutcome.wrapsCalibrated5fold ∧
    soft_fit_check false ≠ CheckOutcome.capabilityFailure := by
  constructor <;> decide

/-- C5 (amended): `_check_classifier` itself raises the capability error
exactly when the classifier lacks `predict_proba` and `adapt_if_necessary`
is false; but on the fit path `adapt_if_necessary` is always true for soft
quantifiers, so fitting never raises the capability error and instead wraps
a non-probabilistic classifier (with a warning). -/
theorem C5_amended_soft_capability_check :
    (∀ hasProba adapt : Bool,
      soft_check_classifier hasProba adapt = CheckOutcome.capabilityFailure ↔
        (hasProba = false ∧ adapt = false)) ∧
    (∀ hasProba : Bool, soft_fit_check hasProba = soft_check_classifier hasProba true) ∧
    (∀ hasProba : Bool, soft_fit_check hasProba ≠ CheckOutcome.capabilityFailure) ∧
    soft_fit_check false = CheckOutcome.wrapsCalibrated5fold := by
  refine ⟨?_, ?_, ?_, by decide⟩ <;> decide

lemma gsStep_fst {α : Type} (acc : List (α × ParamScore) × Option (ℚ × α))
    (r : α × Option ℚ) : (gsStep acc r).1 = acc.1 ++ [gsEntry r] := by
  rcases r with ⟨p, _ | s⟩ <;> rfl

lemma gsStep_snd {α : Type} (acc : List (α × ParamScore) × Option (ℚ × α))
    (r : α × Option ℚ) : (gsStep acc r).2 = gsBestStep acc.2 r := by
  rcases r with ⟨p, _ | s⟩ <;> rfl

lemma foldl_gsStep_fst {α : Type} (results : List (α × Option ℚ)) :
    ∀ acc, (results.foldl gsStep acc).1 = acc.1 ++ results.map gsEntry := by
  induction results with
  | nil => intro acc; simp
  | cons r t ih =>
    intro acc
    rw [List.foldl_cons, ih, gsStep_fst, List.map_cons, List.append_assoc,
      List.singleton_append]

lemma foldl_gsStep_snd {α : Type} (results : List (α × Option ℚ)) :
    ∀ acc, (results.foldl gsStep acc).2 = results.foldl gsBestStep acc.2 := by
  induction results with
  | nil => intro acc; rfl
  | cons r t ih =>
    intro acc
    rw [List.foldl_cons, ih, gsStep_snd, List.foldl_cons]

lemma gsBestStep_eq_none {α : Type} (b0 : Option (ℚ × α)) (r : α × Option ℚ) :
    gsBestStep b0 r = none ↔ (b0 = none ∧ r.2 = none) := by
  rcases r with ⟨p, _ | s⟩
  · simp [gsBestStep]
  · rcases b0 with _ | ⟨s1, p1⟩
    · simp [gsBestStep]
    · simp only [gsBestStep]
      split_ifs <;> simp

lemma gsBestFold_none_iff {α : Type} (results : List (α × Option ℚ)) :
    ∀ b0, results.foldl gsBestStep b0 = none ↔
      (b0 = none ∧ ∀ r ∈ results, r.2 = (none : Option ℚ)) := by
  induction results with
  | nil => intro b0; simp
  | cons r t ih =>
    intro b0
    rw [List.foldl_cons, ih, gsBestStep_eq_none]
    constructor
    · rintro ⟨⟨h1, h2⟩, h3⟩
      exact ⟨h1, by simpa [h2] using h3⟩
    · rintro ⟨h1, h2⟩
      refine ⟨⟨h1, h2 r (List.mem_cons_self r t)⟩, fun x hx => h2 x (List.mem_cons_of_mem r hx)⟩

lemma gsBestStep_some_mono {α : Type} {b0 : Option (ℚ × α)} {s1 : ℚ} {p1 : α}
    (h : b0 = some (s1, p1)) (r : α × Option ℚ) :
    ∃ s' p', gsBestStep b0 r = some (s', p') ∧ s' ≤ s1 := by
  subst h
  rcases r with ⟨p, _ | s⟩
  · exact ⟨s1, p1, rfl, le_refl s1⟩
  · simp only [gsBestStep]
    split_ifs with h1
    · exact ⟨s, p, rfl, le_of_lt h1⟩
    · exact ⟨s1, p1, rfl, le_refl s1⟩

lemma gsBestStep_new_score {α : Type} (b0 : Option (ℚ × α)) (p : α) (s : ℚ) :
    ∃ s' p', gsBestStep b0 (p, some s) = some (s', p') ∧ s' ≤ s := by
  rcases b0 with _ | ⟨s1, p1⟩
  · exact ⟨s, p, rfl, le_refl s⟩
  · simp only [gsBestStep]
    split_ifs with h1
    · exact ⟨s, p, rfl, le_refl s⟩
    · exact ⟨s1, p1, rfl, le_of_not_lt h1⟩

lemma gsBestFold_some_spec {α : Type} (results : List (α × Option ℚ)) :
    ∀ (b0 : Option (ℚ × α)) (bs : ℚ) (bp : α),
      results.foldl gsBestStep b0 = some (bs, bp) →
      (b0 = some (bs, bp) ∨ (bp, some bs) ∈ results) ∧
      (∀ s p, b0 = some (s, p) → bs ≤ s) ∧
      (∀ p s, (p, some s) ∈ results → bs ≤ s) := by
  induction results with
  | nil =>
    intro b0 bs bp h
    simp only [List.foldl_nil] at h
    refine ⟨Or.inl h, fun s p hb => ?_, by simp⟩
    rw [h] at hb
    injection hb with hb
    injection hb with hb1 hb2
    exact le_of_eq hb1
  | cons r t ih =>
    rcases r with ⟨rp, rs⟩
    intro b0 bs bp h
    rw [List.foldl_cons] at h
    obtain ⟨hmem, hle0, hlet⟩ := ih (gsBestStep b0 (rp, rs)) bs bp h
    refine ⟨?_, ?_, ?_⟩
    · rcases hmem with hb | hb
      · -- the incumbent after the head step is the final best
        rcases rs with _ | s
        · exact Or.inl hb
        · rcases hb0 : b0 with _ | ⟨s1, p1⟩
          · rw [hb0] at hb
            have hb' : some (s, rp) = some (bs, bp) := hb
            injection hb' with e
            injection e with e1 e2
            right
            rw [← e1, ← e2]
            exact List.mem_cons_self _ _
          · rw [hb0] at hb
            have hb' : (if s < s1 then some (s, rp) else some (s1, p1)) =
                some (bs, bp) := hb
            split_ifs at hb' with hlt
            · injection hb' with e
              injection e with e1 e2
              right
              rw [← e1, ← e2]
              exact List.mem_cons_self _ _
            · left
              exact hb'
      · exact Or.inr (List.mem_cons_of_mem _ hb)
    · intro s p hb0
      obtain ⟨s', p', hstep, hle⟩ := gsBestStep_some_mono hb0 (rp, rs)
      exact le_trans (hle0 s' p' hstep) hle
    · intro p s hps
      rcases List.mem_cons.mp hps with hhead | htail
      · obtain ⟨s', p', hstep, hle⟩ := gsBestStep_new_score b0 p s
        rw [hhead] at hstep
        exact le_trans (hle0 s' p' hstep) hle
      · exact hlet p s htail

lemma gridSearchFit_param_scores {α : Type} (results : List (α × Option ℚ))
    (refit onLabelled : Bool) :
    (gridSearchFit results refit onLabelled).param_scores = results.map gsEntry := by
  unfold gridSearchFit gsSelect
  dsimp only
  rcases h2 : (results.foldl gsStep ([], none)).2 with _ | b
  · simpa using foldl_gsStep_fst results ([], none)
  · dsimp only
    split_ifs <;> simpa using foldl_gsStep_fst results ([], none)

lemma gridSearchFit_best {α : Type} (results : List (α × Option ℚ))
    (refit onLabelled : Bool) :
    (gridSearchFit results refit onLabelled).best =
      results.foldl gsBestStep none := by
  unfold gridSearchFit gsSelect
  dsimp only
  rcases h2 : (results.foldl gsStep ([], none)).2 with _ | b
  · rw [foldl_gsStep_snd] at h2
    exact h2.symm
  · rw [foldl_gsStep_snd] at h2
    dsimp only
    split_ifs <;> exact h2.symm

lemma gridSearchFit_outcome_all_none {α : Type} (results : List (α × Option ℚ))
    (refit onLabelled : Bool) (hall : ∀ r ∈ results, r.2 = (none : Option ℚ)) :
    (gridSearchFit results refit onLabelled).outcome = Except.error GSErr.allTimedOut := by
  unfold gridSearchFit gsSelect
  dsimp only
  have h2 : (results.foldl gsStep ([], (none : Option (ℚ × α)))).2 = none := by
    rw [foldl_gsStep_snd]
    exact (gsBestFold_none_iff results none).mpr ⟨rfl, hall⟩
  rw [h2]

/-- C3: in `GridSearchQ.fit`, every timed-out configuration is recorded in
`param_scores_` with the distinct `'timeout'` marker and is excluded from
selection; among the completed configurations, the selected best has
minimal score; and if every configuration timed out, `fit` raises
`TimeoutError`. -/
theorem C3_grid_search_selection :
    ∀ {α : Type} (results : List (α × Option ℚ)) (refit onLabelled : Bool),
      (gridSearchFit results refit onLabelled).param_scores = results.map gsEntry ∧
      ((∀ r ∈ results, r.2 = (none : Option ℚ)) →
        (gridSearchFit results refit onLabelled).best = none ∧
        (gridSearchFit results refit onLabelled).outcome =
          Except.error GSErr.allTimedOut) ∧
      ((∃ r ∈ results, r.2 ≠ (none : Option ℚ)) →
        ∃ bs bp, (gridSearchFit results refit onLabelled).best = some (bs, bp) ∧
          (bp, some bs) ∈ results ∧
          ∀ p s, (p, some s) ∈ results → bs ≤ s) := by
  intro α results refit onLabelled
  refine ⟨gridSearchFit_param_scores results refit onLabelled, fun hall => ?_, fun hex => ?_⟩
  · refine ⟨?_, gridSearchFit_outcome_all_none results refit onLabelled hall⟩
    rw [gridSearchFit_best]
    exact (gsBestFold_none_iff results none).mpr ⟨rfl, hall⟩
  · obtain ⟨r, hr, hne⟩ := hex
    have hnot : ¬ results.foldl gsBestStep none = none := by
      intro hnone
      exact hne (((gsBestFold_none_iff results none).mp hnone).2 r hr)
    rcases hb : results.foldl gsBestStep (none : Option (ℚ × α)) with _ | ⟨bs, bp⟩
    · exact absurd hb hnot
    · obtain ⟨hmem, _, hle⟩ := gsBestFold_some_spec results none bs bp hb
      refine ⟨bs, bp, ?_, ?_, hle⟩
      · rw [gridSearchFit_best]
        exact hb
      · rcases hmem with h | h
        · exact absurd h (by simp)
        · exact h

/-- Witness for C3, the spec's own example: three configurations scoring
`0.1`, `0.05` and a timeout; the recorded entries keep the timeout marker
distinct, and the selected best scores `0.05`. -/
theorem C3_grid_search_witness :
    (gridSearchFit [(0, some ((1:ℚ)/10)), (1, some (1/20)), (2, none)]
        true true).param_scores =
      [(0, ParamScore.score ((1:ℚ)/10)), (1, ParamScore.score (1/20)),
       (2, ParamScore.timeoutMark)] ∧
    (∃ bs bp,
      (gridSearchFit [(0, some ((1:ℚ)/10)), (1, some (1/20)), (2, none)]
        true true).best = some (bs, bp) ∧
      (bp, some bs) ∈ [(0, some ((1:ℚ)/10)), (1, some (1/20)), (2, none)] ∧
      ∀ p s, (p, some s) ∈ [(0, some ((1:ℚ)/10)), (1, some (1/20)), (2, none)] →
        bs ≤ s) := by
  constructor
  · rw [(C3_grid_search_selection
      [(0, some ((1:ℚ)/10)), (1, some (1/20)), (2, none)] true true).1]
    rfl
  · exact (C3_grid_search_selection
      [(0, some ((1:ℚ)/10)), (1, some (1/20)), (2, none)] true true).2.2
      ⟨(0, some ((1:ℚ)/10)), by simp, by simp⟩

/-- C10: if `GridSearchQ` is constructed with `refit=True` and the protocol
is not an `OnLabelledCollectionProtocol`, `fit` raises after selection
completes (the `RuntimeWarning` at model_selection.py lines 112-113)
instead of silently skipping the refit, and `best_score_`/`best_params_`
(with the accompanying `best_model_`) are already set when the exception is
raised. -/
theorem C10_refit_unsupported_raises :
    ∀ {α : Type} (results : List (α × Option ℚ)),
      (∃ r ∈ results, r.2 ≠ (none : Option ℚ)) →
      (gridSearchFit results true false).outcome =
        Except.error GSErr.refitUnsupported ∧
      ∃ bs bp, (gridSearchFit results true false).best = some (bs, bp) ∧
        (bp, some bs) ∈ results ∧
        ∀ p s, (p, some s) ∈ results → bs ≤ s := by
  intro α results hex
  obtain ⟨r, hr, hne⟩ := hex
  have hnot : ¬ results.foldl gsBestStep none = none := by
    intro hnone
    exact hne (((gsBestFold_none_iff results none).mp hnone).2 r hr)
  rcases hb : results.foldl gsBestStep (none : Option (ℚ × α)) with _ | ⟨bs, bp⟩
  · exact absurd hb hnot
  · obtain ⟨hmem, _, hle⟩ := gsBestFold_some_spec results none bs bp hb
    constructor
    · unfold gridSearchFit gsSelect
      dsimp only
      rw [show (results.foldl gsStep ([], (none : Option (ℚ × α)))).2 = some (bs, bp) by
        rw [foldl_gsStep_snd]; exact hb]
      rfl
    · refine ⟨bs, bp, ?_, ?_, hle⟩
      · rw [gridSearchFit_best]
        exact hb
      · rcases hmem with h | h
        · exact absurd h (by simp)
        · exact h

/-- Witness for C10: two configurations, one timing out and one scoring
`1/2`; with `refit` requested and the protocol not exposing its labelled
collection, `fit` raises while the best configuration is already selected. -/
theorem C10_refit_unsupported_witness :
    (gridSearchFit [(0, (none : Option ℚ)), (1, some (1/2))] true false).outcome =
      Except.error GSErr.refitUnsupported ∧
    ∃ bs bp,
      (gridSearchFit [(0, (none : Option ℚ)), (1, some (1/2))] true false).best =
        some (bs, bp) ∧
      (bp, some bs) ∈ [(0, (none : Option ℚ)), (1, some (1/2))] ∧
      ∀ p s, (p, some s) ∈ [(0, (none : Option ℚ)), (1, some (1/2))] → bs ≤ s :=
  C10_refit_unsupported_raises [(0, (none : Option ℚ)), (1, some (1/2))]
    ⟨(1, some (1/2)), by simp, by simp⟩

/-- Characterization of the `EMQ.EM` while loop: started at iteration
counter `s` with running estimate `emSeq s`, the result follows the
estimate sequence, and the loop exits with `converged = true` exactly at
the first iteration `t ∈ [s, s + fuel)` whose new estimate satisfies
`mae < eps` with `t > 10`, performing `t + 1` updates; otherwise it
performs all `fuel` remaining iterations with `converged = false`. -/
lemma emLoop_characterization {n : ℕ} (Ptr : Fin n → ℚ) (Px : List (Fin n → ℚ))
    (eps : ℚ) :
    ∀ (fuel s : ℕ),
      (emLoop Ptr Px eps fuel s (emSeq Ptr Px s)).prevs =
        emSeq Ptr Px (emLoop Ptr Px eps fuel s (emSeq Ptr Px s)).iters ∧
      ((emLoop Ptr Px eps fuel s (emSeq Ptr Px s)).converged = true →
        s + 1 ≤ (emLoop Ptr Px eps fuel s (emSeq Ptr Px s)).iters ∧
        (emLoop Ptr Px eps fuel s (emSeq Ptr Px s)).iters ≤ s + fuel ∧
        (mae (emSeq Ptr Px ((emLoop Ptr Px eps fuel s (emSeq Ptr Px s)).iters))
            (emSeq Ptr Px ((emLoop Ptr Px eps fuel s (emSeq Ptr Px s)).iters - 1)) < eps ∧
          (emLoop Ptr Px eps fuel s (emSeq Ptr Px s)).iters - 1 > 10) ∧
        (∀ t, s ≤ t → t < (emLoop Ptr Px eps fuel s (emSeq Ptr Px s)).iters - 1 →
          ¬(mae (emSeq Ptr Px (t + 1)) (emSeq Ptr Px t) < eps ∧ t > 10))) ∧
      ((emLoop Ptr Px eps fuel s (emSeq Ptr Px s)).converged = false →
        (emLoop Ptr Px eps fuel s (emSeq Ptr Px s)).iters = s + fuel ∧
        (∀ t, s ≤ t → t < s + fuel →
          ¬(mae (emSeq Ptr Px (t + 1)) (emSeq Ptr Px t) < eps ∧ t > 10))) := by
  intro fuel
  induction fuel with
  | zero =>
    intro s
    refine ⟨rfl, fun hc => by simp [emLoop] at hc, fun _ => ⟨rfl, fun t h1 h2 => ?_⟩⟩
    omega
  | succ fuel ih =>
    intro s
    have hstep : emIter Ptr Px (emSeq Ptr Px s) = emSeq Ptr Px (s + 1) := rfl
    by_cases hc : mae (emSeq Ptr Px (s + 1)) (emSeq Ptr Px s) < eps ∧ s > 10
    · have hred : emLoop Ptr Px eps (fuel + 1) s (emSeq Ptr Px s) =
          ⟨emSeq Ptr Px (s + 1), true, s + 1⟩ := by
        rw [emLoop, hstep, if_pos hc]
      rw [hred]
      dsimp only
      refine ⟨rfl, fun _ => ⟨le_refl _, by omega, ?_, fun t h1 h2 => by omega⟩,
        fun hfalse => by simp at hfalse⟩
      simpa using hc
    · have hred : emLoop Ptr Px eps (fuel + 1) s (emSeq Ptr Px s) =
          emLoop Ptr Px eps fuel (s + 1) (emSeq Ptr Px (s + 1)) := by
        rw [emLoop, hstep, if_neg hc]
      rw [hred]
      obtain ⟨ih1, ih2, ih3⟩ := ih (s + 1)
      refine ⟨ih1, fun ht => ?_, fun hf => ?_⟩
      · obtain ⟨ha, hb, hconv, hmin⟩ := ih2 ht
        refine ⟨by omega, by omega, hconv, fun t h1 h2 => ?_⟩
        rcases Nat.eq_or_lt_of_le h1 with rfl | hgt
        · exact hc
        · exact hmin t hgt h2
      · obtain ⟨ha, hmin⟩ := ih3 hf
        refine ⟨by omega, fun t h1 h2 => ?_⟩
        rcases Nat.eq_or_lt_of_le h1 with rfl | hgt
        · exact hc
        · exact hmin t hgt (by omega)

/-- C2 (amended): `EMQ.EM` starts the running estimate at the training
prevalence and follows the E-step/M-step sequence `emSeq` (E-step:
elementwise reweighting by the ratio of running estimate to training
prevalence with per-row renormalization; M-step: column mean — these are
the definitions `emEstep`/`emMstep`).  It declares convergence exactly at
the first iteration whose counter `s` (0-based) satisfies both
`mae < eps` between consecutive estimates AND `s > 10` — i.e. strictly
more than 10 prior iterations, so convergence is first declarable on the
12th update — and otherwise stops at the 1000-iteration cap with
`converged = false` (the non-convergence warning), returning the last
estimate. -/
theorem C2_em_stopping_amended :
    ∀ (n : ℕ) (Ptr : Fin n → ℚ) (Px : List (Fin n → ℚ)) (eps : ℚ),
      (EMQ_EM Ptr Px eps).prevs = emSeq Ptr Px (EMQ_EM Ptr Px eps).iters ∧
      ((EMQ_EM Ptr Px eps).converged = true →
        1 ≤ (EMQ_EM Ptr Px eps).iters ∧ (EMQ_EM Ptr Px eps).iters ≤ 1000 ∧
        (mae (emSeq Ptr Px ((EMQ_EM Ptr Px eps).iters))
            (emSeq Ptr Px ((EMQ_EM Ptr Px eps).iters - 1)) < eps ∧
          (EMQ_EM Ptr Px eps).iters - 1 > 10) ∧
        (∀ t, t < (EMQ_EM Ptr Px eps).iters - 1 →
          ¬(mae (emSeq Ptr Px (t + 1)) (emSeq Ptr Px t) < eps ∧ t > 10))) ∧
      ((EMQ_EM Ptr Px eps).converged = false →
        (EMQ_EM Ptr Px eps).iters = 1000 ∧
        (EMQ_EM Ptr Px eps).prevs = emSeq Ptr Px 1000 ∧
        (∀ t, t < 1000 →
          ¬(mae (emSeq Ptr Px (t + 1)) (emSeq Ptr Px t) < eps ∧ t > 10))) := by
  intro n Ptr Px eps
  have h := emLoop_characterization Ptr Px eps EMQ_MAX_ITER 0
  have hEM : EMQ_EM Ptr Px eps = emLoop Ptr Px eps EMQ_MAX_ITER 0 (emSeq Ptr Px 0) := rfl
  rw [← hEM] at h
  obtain ⟨h1, h2, h3⟩ := h
  simp only [EMQ_MAX_ITER, Nat.zero_add] at h2 h3
  refine ⟨h1, fun ht => ?_, fun hf => ?_⟩
  · obtain ⟨ha, hb, hconv, hmin⟩ := h2 ht
    exact ⟨ha, hb, hconv, fun t h2' => hmin t (Nat.zero_le t) h2'⟩
  · obtain ⟨ha, hmin⟩ := h3 hf
    refine ⟨ha, by rw [h1, ha], fun t h2' => hmin t (Nat.zero_le t) h2'⟩

lemma mae_self {n : ℕ} (v : Fin n → ℚ) : mae v v = 0 := by
  unfold mae
  simp

lemma emIter_const_half :
    emIter ![(1:ℚ)/2, 1/2] [![(1:ℚ)/2, 1/2]] ![(1:ℚ)/2, 1/2] = ![(1:ℚ)/2, 1/2] := by
  funext j
  fin_cases j <;>
    simp [emIter, emMstep, emEstep, Fin.sum_univ_two] <;> norm_num

lemma emSeq_const_half (k : ℕ) :
    emSeq ![(1:ℚ)/2, 1/2] [![(1:ℚ)/2, 1/2]] k = ![(1:ℚ)/2, 1/2] := by
  induction k with
  | zero => rfl
  | succ k ih => rw [emSeq, ih, emIter_const_half]

lemma emq_const_half_run :
    (EMQ_EM ![(1:ℚ)/2, 1/2] [![(1:ℚ)/2, 1/2]] EMQ_EPSILON).converged = true ∧
    (EMQ_EM ![(1:ℚ)/2, 1/2] [![(1:ℚ)/2, 1/2]] EMQ_EPSILON).iters = 12 := by
  have hchar := emLoop_characterization ![(1:ℚ)/2, 1/2] [![(1:ℚ)/2, 1/2]]
    EMQ_EPSILON EMQ_MAX_ITER 0
  have hEM : EMQ_EM ![(1:ℚ)/2, 1/2] [![(1:ℚ)/2, 1/2]] EMQ_EPSILON =
      emLoop ![(1:ℚ)/2, 1/2] [![(1:ℚ)/2, 1/2]] EMQ_EPSILON EMQ_MAX_ITER 0
        (emSeq ![(1:ℚ)/2, 1/2] [![(1:ℚ)/2, 1/2]] 0) := rfl
  rw [← hEM] at hchar
  obtain ⟨h1, h2, h3⟩ := hchar
  have hconv11 : mae (emSeq ![(1:ℚ)/2, 1/2] [![(1:ℚ)/2, 1/2]] (11 + 1))
      (emSeq ![(1:ℚ)/2, 1/2] [![(1:ℚ)/2, 1/2]] 11) < EMQ_EPSILON ∧ 11 > 10 := by
    rw [emSeq_const_half, emSeq_const_half, mae_self]
    exact ⟨by norm_num [EMQ_EPSILON], by norm_num⟩
  have htrue : (EMQ_EM ![(1:ℚ)/2, 1/2] [![(1:ℚ)/2, 1/2]] EMQ_EPSILON).converged = true := by
    rcases hbool : (EMQ_EM ![(1:ℚ)/2, 1/2] [![(1:ℚ)/2, 1/2]] EMQ_EPSILON).converged
    · obtain ⟨_, hmin⟩ := h3 hbool
      exact absurd hconv11 (hmin 11 (by omega) (by norm_num [EMQ_MAX_ITER]))
    · rfl
  refine ⟨htrue, ?_⟩
  obtain ⟨ha, hb, hconv, hmin⟩ := h2 htrue
  by_cases hlt : 11 < (EMQ_EM ![(1:ℚ)/2, 1/2] [![(1:ℚ)/2, 1/2]] EMQ_EPSILON).iters - 1
  · exact absurd hconv11 (hmin 11 (by omega) hlt)
  · omega

/-- C2 (counterexample): with training prevalence `[1/2, 1/2]` and the
single posterior row `[1/2, 1/2]`, consecutive EM estimates agree from the
very first update (`mae = 0 < 1e-4`), so the claim's stopping rule —
tolerance met AND at least 10 iterations elapsed — would declare
convergence after 10 updates; the source (`s > 10` with the 0-based
counter) performs 12 updates before declaring convergence. -/
theorem C2_counterexample_stop_after_twelve :
    (mae (emSeq ![(1:ℚ)/2, 1/2] [![(1:ℚ)/2, 1/2]] 10)
      (emSeq ![(1:ℚ)/2, 1/2] [![(1:ℚ)/2, 1/2]] 9) < EMQ_EPSILON) ∧
    (EMQ_EM ![(1:ℚ)/2, 1/2] [![(1:ℚ)/2, 1/2]] EMQ_EPSILON).converged = true ∧
    (EMQ_EM ![(1:ℚ)/2, 1/2] [![(1:ℚ)/2, 1/2]] EMQ_EPSILON).iters = 12 ∧
    (EMQ_EM ![(1:ℚ)/2, 1/2] [![(1:ℚ)/2, 1/2]] EMQ_EPSILON).iters ≠ 10 := by
  refine ⟨?_, emq_const_half_run.1, emq_const_half_run.2, ?_⟩
  · rw [emSeq_const_half, emSeq_const_half, mae_self]
    norm_num [EMQ_EPSILON]
  · rw [emq_const_half_run.2]
    omega

/-- Witness for C2 (amended) at the constant input `[1/2, 1/2]`: the
convergence branch of the amended theorem instantiated where
`converged = true`, exhibiting the stopping conditions at `iters = 12`. -/
theorem C2_em_stopping_witness :
    1 ≤ (EMQ_EM ![(1:ℚ)/2, 1/2] [![(1:ℚ)/2, 1/2]] EMQ_EPSILON).iters ∧
    (EMQ_EM ![(1:ℚ)/2, 1/2] [![(1:ℚ)/2, 1/2]] EMQ_EPSILON).iters ≤ 1000 ∧
    (mae (emSeq ![(1:ℚ)/2, 1/2] [![(1:ℚ)/2, 1/2]]
        ((EMQ_EM ![(1:ℚ)/2, 1/2] [![(1:ℚ)/2, 1/2]] EMQ_EPSILON).iters))
      (emSeq ![(1:ℚ)/2, 1/2] [![(1:ℚ)/2, 1/2]]
        ((EMQ_EM ![(1:ℚ)/2, 1/2] [![(1:ℚ)/2, 1/2]] EMQ_EPSILON).iters - 1)) < EMQ_EPSILON ∧
      (EMQ_EM ![(1:ℚ)/2, 1/2] [![(1:ℚ)/2, 1/2]] EMQ_EPSILON).iters - 1 > 10) ∧
    (∀ t, t < (EMQ_EM ![(1:ℚ)/2, 1/2] [![(1:ℚ)/2, 1/2]] EMQ_EPSILON).iters - 1 →
      ¬(mae (emSeq ![(1:ℚ)/2, 1/2] [![(1:ℚ)/2, 1/2]] (t + 1))
          (emSeq ![(1:ℚ)/2, 1/2] [![(1:ℚ)/2, 1/2]] t) < EMQ_EPSILON ∧ t > 10)) :=
  (C2_em_stopping_amended 2 ![(1:ℚ)/2, 1/2] [![(1:ℚ)/2, 1/2]] EMQ_EPSILON).2.1
    emq_const_half_run.1

lemma mem_uniqueSorted (l : List ℚ) (x : ℚ) : x ∈ uniqueSorted l ↔ x ∈ l := by
  unfold uniqueSorted
  rw [List.mem_dedup]
  exact (List.mergeSort_perm l _).mem_iff

lemma evalCandidateThresholds_mem (discard : ℚ → ℚ → Bool) (cond : ℚ → ℚ → ℚ)
    (scores : List ℚ) (y : List Bool)
    (hex : ∃ t ∈ scores, discard (tprAt scores y t) (fprAt scores y t) = false) :
    ∀ c, c ∈ evalCandidateThresholds discard cond scores y ↔
      ∃ t ∈ scores, discard (tprAt scores y t) (fprAt scores y t) = false ∧
        c = (tprAt scores y t, fprAt scores y t, t) := by
  intro c
  unfold evalCandidateThresholds
  dsimp only
  have hmemf : ∀ c', c' ∈ (uniqueSorted scores).filterMap (fun t =>
      if discard (tprAt scores y t) (fprAt scores y t) then none
      else some (tprAt scores y t, fprAt scores y t, t)) ↔
      ∃ t ∈ scores, discard (tprAt scores y t) (fprAt scores y t) = false ∧
        c' = (tprAt scores y t, fprAt scores y t, t) := by
    intro c'
    rw [List.mem_filterMap]
    constructor
    · rintro ⟨t, ht, hf⟩
      by_cases hd : discard (tprAt scores y t) (fprAt scores y t) = true
      · rw [if_pos hd] at hf
        exact absurd hf (by simp)
      · rw [if_neg hd] at hf
        refine ⟨t, (mem_uniqueSorted scores t).mp ht, by simpa using hd, ?_⟩
        injection hf with hf
        exact hf.symm
    · rintro ⟨t, ht, hd, rfl⟩
      refine ⟨t, (mem_uniqueSorted scores t).mpr ht, ?_⟩
      rw [if_neg (by simp [hd])]
  have hne : (uniqueSorted scores).filterMap (fun t =>
      if discard (tprAt scores y t) (fprAt scores y t) then none
      else some (tprAt scores y t, fprAt scores y t, t)) ≠ [] := by
    obtain ⟨t, ht, hd⟩ := hex
    intro hnil
    have : (tprAt scores y t, fprAt scores y t, t) ∈ ([] : List (ℚ × ℚ × ℚ)) := by
      rw [← hnil, hmemf]
      exact ⟨t, ht, hd, rfl⟩
    simp at this
  rw [if_neg hne]
  rw [(List.mergeSort_perm _ _).mem_iff]
  exact hmemf c

lemma evalCandidateThresholds_default (discard : ℚ → ℚ → Bool)
    (cond : ℚ → ℚ → ℚ) (scores : List ℚ) (y : List Bool)
    (hall : ∀ t ∈ scores, discard (tprAt scores y t) (fprAt scores y t) = true) :
    evalCandidateThresholds discard cond scores y = [(1, 0, 0)] := by
  unfold evalCandidateThresholds
  dsimp only
  have hnil : (uniqueSorted scores).filterMap (fun t =>
      if discard (tprAt scores y t) (fprAt scores y t) then none
      else some (tprAt scores y t, fprAt scores y t, t)) = [] := by
    rw [List.filterMap_eq_nil_iff]
    intro t ht
    rw [if_pos (hall t ((mem_uniqueSorted scores t).mp ht))]
  rw [hnil, if_pos rfl]
  exact List.mergeSort_singleton _

lemma aggregate_default_eq_CC (ts : List ℚ) (hne : ts ≠ []) :
    aggregate_with_threshold ts 1 0 0 =
      CC_aggregate (ts.map (fun x => if 0 ≤ x then (1 : Fin 2) else 0)) := by
  have hlen : (0 : ℚ) < (ts.length : ℚ) := by
    have := List.length_pos.mpr hne
    exact_mod_cast this
  have hk : ((ts.filter (fun x => decide ((0:ℚ) ≤ x))).length : ℚ) ≤ (ts.length : ℚ) := by
    exact_mod_cast List.length_filter_le _ ts
  have hrate0 : (0:ℚ) ≤ ((ts.filter (fun x => decide ((0:ℚ) ≤ x))).length : ℚ) / (ts.length : ℚ) :=
    div_nonneg (by positivity) hlen.le
  have hrate1 : ((ts.filter (fun x => decide ((0:ℚ) ≤ x))).length : ℚ) / (ts.length : ℚ) ≤ 1 :=
    (div_le_one hlen).mpr hk
  have h1 : (ts.map (fun x => if 0 ≤ x then (1 : Fin 2) else 0)).count 1 =
      ts.countP (fun x => decide ((0:ℚ) ≤ x)) := by
    rw [List.count_eq_countP, List.countP_map]
    exact List.countP_congr (fun x _ => by
      by_cases hx : (0:ℚ) ≤ x <;> simp [hx, Function.comp])
  have h0 : (ts.map (fun x => if 0 ≤ x then (1 : Fin 2) else 0)).count 0 =
      ts.countP (fun x => !(decide ((0:ℚ) ≤ x))) := by
    rw [List.count_eq_countP, List.countP_map]
    exact List.countP_congr (fun x _ => by
      by_cases hx : (0:ℚ) ≤ x <;> simp [hx, Function.comp])
  have hsum : ts.countP (fun x => decide ((0:ℚ) ≤ x)) +
      ts.countP (fun x => !(decide ((0:ℚ) ≤ x))) = ts.length := by
    have h := List.length_eq_countP_add_countP (fun x => decide ((0:ℚ) ≤ x)) ts
    rw [h]
    congr 1
    exact List.countP_congr (fun x _ => by
      by_cases hx : (0:ℚ) ≤ x <;> simp [hx])
  have hfilter : ts.countP (fun x => decide ((0:ℚ) ≤ x)) =
      (ts.filter (fun x => decide ((0:ℚ) ≤ x))).length :=
    List.countP_eq_length_filter _ ts
  funext i
  unfold aggregate_with_threshold as_binary_prevalence
  simp only [sub_zero, div_one, if_true]
  rw [clip01_eq_self hrate0 hrate1]
  unfold CC_aggregate prevalence_from_labels
  rw [List.length_map]
  fin_cases i
  · show 1 - ((ts.filter (fun x => decide ((0:ℚ) ≤ x))).length : ℚ) / (ts.length : ℚ) =
        ((ts.map (fun x => if 0 ≤ x then (1 : Fin 2) else 0)).count 0 : ℚ) / (ts.length : ℚ)
    rw [h0]
    have hcast : (ts.countP (fun x => !(decide ((0:ℚ) ≤ x))) : ℚ) =
        (ts.length : ℚ) - ((ts.filter (fun x => decide ((0:ℚ) ≤ x))).length : ℚ) := by
      rw [← hfilter]
      have : (ts.countP (fun x => decide ((0:ℚ) ≤ x)) : ℚ) +
          (ts.countP (fun x => !(decide ((0:ℚ) ≤ x))) : ℚ) = (ts.length : ℚ) := by
        exact_mod_cast hsum
      linarith
    rw [hcast]
    field_simp
  · show ((ts.filter (fun x => decide ((0:ℚ) ≤ x))).length : ℚ) / (ts.length : ℚ) =
        ((ts.map (fun x => if 0 ≤ x then (1 : Fin 2) else 0)).count 1 : ℚ) / (ts.length : ℚ)
    rw [h1, hfilter]

/-- C6: `_eval_candidate_thresholds` evaluates every distinct decision score
as a candidate threshold with its `tpr` and `fpr`, keeps exactly the
non-discarded ones (the default `discard` drops `tpr - fpr = 0`; MS2 drops
`tpr - fpr ≤ 0.25`), and when no candidate survives it uses exactly the
default `tpr=1, fpr=0, threshold=0`, which makes `aggregate` equal to
uncorrected classify-and-count on the crisp predictions `score ≥ 0`. -/
theorem C6_threshold_candidate_evaluation :
    (∀ (discard : ℚ → ℚ → Bool) (cond : ℚ → ℚ → ℚ) (scores : List ℚ)
        (y : List Bool),
      (∃ t ∈ scores, discard (tprAt scores y t) (fprAt scores y t) = false) →
      ∀ c, c ∈ evalCandidateThresholds discard cond scores y ↔
        ∃ t ∈ scores, discard (tprAt scores y t) (fprAt scores y t) = false ∧
          c = (tprAt scores y t, fprAt scores y t, t)) ∧
    (∀ (discard : ℚ → ℚ → Bool) (cond : ℚ → ℚ → ℚ) (scores : List ℚ)
        (y : List Bool),
      (∀ t ∈ scores, discard (tprAt scores y t) (fprAt scores y t) = true) →
      evalCandidateThresholds discard cond scores y = [(1, 0, 0)]) ∧
    (∀ a b : ℚ, discard_default a b = true ↔ a - b = 0) ∧
    (∀ a b : ℚ, MS2_discard a b = true ↔ a - b ≤ 1/4) ∧
    (∀ ts : List ℚ, ts ≠ [] →
      aggregate_with_threshold ts 1 0 0 =
        CC_aggregate (ts.map (fun x => if 0 ≤ x then (1 : Fin 2) else 0))) := by
  refine ⟨evalCandidateThresholds_mem, evalCandidateThresholds_default, ?_, ?_,
    aggregate_default_eq_CC⟩
  · intro a b
    unfold discard_default
    simp
  · intro a b
    unfold MS2_discard
    simp

/-- Witness for C6: with the single score `0` against a negative label,
the only candidate has `tpr = 1` (empty positive class), `fpr = 1`, so it
is discarded and the default `(1, 0, 0)` is used; and the default triple
makes the adjusted count equal to plain classify-and-count on the test
scores `[1, -1]`. -/
theorem C6_threshold_candidate_witness :
    evalCandidateThresholds discard_default T50_condition [0] [false] = [(1, 0, 0)] ∧
    aggregate_with_threshold [(1:ℚ), -1] 1 0 0 =
      CC_aggregate ([(1:ℚ), -1].map (fun x => if 0 ≤ x then (1 : Fin 2) else 0)) := by
  constructor
  · refine C6_threshold_candidate_evaluation.2.1 discard_default T50_condition
      [0] [false] ?_
    intro t ht
    simp only [List.mem_singleton] at ht
    subst ht
    have htpr : tprAt [0] [false] 0 = 1 := by
      simp [tprAt, confusionCounts, compute_tpr]
    have hfpr : fprAt [0] [false] 0 = 1 := by
      simp [fprAt, confusionCounts, compute_fpr]
    rw [htpr, hfpr]
    simp [discard_default]
  · exact C6_threshold_candidate_evaluation.2.2.2.2 [(1:ℚ), -1] (by simp)

lemma as_binary_prevalence_clip_isPrev (p : ℚ) :
    IsPrevVector (as_binary_prevalence p true) := by
  constructor
  · intro i
    fin_cases i
    · show (0:ℚ) ≤ 1 - clip01 p
      have := clip01_le_one p
      linarith
    · exact clip01_nonneg p
  · rw [Fin.sum_univ_two]
    show (1 - clip01 p) + clip01 p = 1
    ring

lemma as_binary_prevalence_isPrev (p : ℚ) (h0 : 0 ≤ p) (h1 : p ≤ 1) :
    IsPrevVector (as_binary_prevalence p false) := by
  constructor
  · intro i
    fin_cases i
    · show (0:ℚ) ≤ 1 - p
      linarith
    · exact h0
  · rw [Fin.sum_univ_two]
    show (1 - p) + p = 1
    ring

lemma solve_adjustment_isPrev {n : ℕ} {A : Matrix (Fin n) (Fin n) ℚ}
    {b : Fin n → ℚ} (hA : ColStochastic A) (hb : IsPrevVector b) :
    IsPrevVector (solve_adjustment A b) := by
  by_cases hdet : A.det = 0
  · unfold solve_adjustment
    rw [if_pos hdet]
    exact hb
  · exact (solve_adjustment_nonsingular hA hb hdet).2

lemma argminScan_foldl_mem {α : Type} (f : α → ℚ) :
    ∀ (l : List α) (acc : Option (α × ℚ)) (b : α × ℚ),
      l.foldl (fun acc c =>
        match acc with
        | none => some (c, f c)
        | some (bb, m) => if f c < m then some (c, f c) else some (bb, m)) acc =
        some b →
      acc = some b ∨ b.1 ∈ l := by
  intro l
  induction l with
  | nil => intro acc b h; exact Or.inl h
  | cons c t ih =>
    intro acc b h
    rw [List.foldl_cons] at h
    rcases ih _ b h with hacc | hmem
    · rcases acc with _ | ⟨bb, m⟩
      · have : (c, f c) = b := by
          injection hacc
        right
        rw [← this]
        exact List.mem_cons_self _ _
      · dsimp only at hacc
        by_cases hlt : f c < m
        · rw [if_pos hlt] at hacc
          have : (c, f c) = b := by injection hacc
          right
          rw [← this]
          exact List.mem_cons_self _ _
        · rw [if_neg hlt] at hacc
          exact Or.inl hacc
    · exact Or.inr (List.mem_cons_of_mem _ hmem)

lemma argminScan_foldl_isSome {α : Type} (f : α → ℚ) :
    ∀ (l : List α) (acc : Option (α × ℚ)), acc ≠ none ∨ l ≠ [] →
      l.foldl (fun acc c =>
        match acc with
        | none => some (c, f c)
        | some (bb, m) => if f c < m then some (c, f c) else some (bb, m)) acc ≠
        none := by
  intro l
  induction l with
  | nil =>
    intro acc h
    rcases h with h | h
    · simpa using h
    · simp at h
  | cons c t ih =>
    intro acc _
    rw [List.foldl_cons]
    apply ih
    left
    rcases acc with _ | ⟨bb, m⟩
    · simp
    · by_cases hlt : f c < m <;> simp [hlt]

lemma argminScan_mem {α : Type} (f : α → ℚ) (cands : List α) (hne : cands ≠ []) :
    ∃ x, argminScan f cands = some x ∧ x ∈ cands := by
  unfold argminScan
  rcases hres : cands.foldl (fun acc c =>
      match acc with
      | none => some (c, f c)
      | some (bb, m) => if f c < m then some (c, f c) else some (bb, m))
      none with _ | b
  · exact absurd hres (argminScan_foldl_isSome f cands none (Or.inr hne))
  · refine ⟨b.1, by rw [hres]; rfl, ?_⟩
    rcases argminScan_foldl_mem f cands none b hres with h | h
    · exact absurd h (by simp)
    · exact h

lemma prevalence_linspace101_mem {x : ℚ} (hx : x ∈ prevalence_linspace101) :
    0 ≤ x ∧ x ≤ 1 := by
  unfold prevalence_linspace101 at hx
  obtain ⟨k, hk, rfl⟩ := List.mem_map.mp hx
  rw [List.mem_range] at hk
  constructor
  · positivity
  · rw [div_le_one (by norm_num)]
    exact_mod_cast Nat.lt_succ_iff.mp hk

lemma ternarySearch_mem_unit (f : ℚ → ℚ) (tol : ℚ) :
    ∀ (fuel : ℕ) (l r : ℚ), 0 ≤ l → l ≤ r → r ≤ 1 →
      0 ≤ ternarySearch f tol fuel l r ∧ ternarySearch f tol fuel l r ≤ 1 := by
  intro fuel
  induction fuel with
  | zero =>
    intro l r h0 hlr h1
    unfold ternarySearch
    constructor <;> [linarith; linarith]
  | succ fuel ih =>
    intro l r h0 hlr h1
    rw [ternarySearch]
    by_cases habs : |r - l| < tol
    · rw [if_pos habs]
      constructor <;> linarith
    · rw [if_neg habs]
      dsimp only
      by_cases hgt : f (l + (r - l) / 3) > f (r - (r - l) / 3)
      · rw [if_pos hgt]
        exact ih (l + (r - l) / 3) r (by linarith) (by linarith) h1
      · rw [if_neg hgt]
        exact ih l (r - (r - l) / 3) h0 (by linarith) (by linarith)

lemma npMedian_mem_Icc {l : List ℚ} (hne : l ≠ []) {a b : ℚ}
    (hbound : ∀ x ∈ l, a ≤ x ∧ x ≤ b) :
    a ≤ npMedian l ∧ npMedian l ≤ b := by
  unfold npMedian
  dsimp only
  have hlen : 0 < l.length := List.length_pos.mpr hne
  have hslen : (l.mergeSort (· ≤ ·)).length = l.length := List.length_mergeSort l
  have hi1 : (l.length - 1) / 2 < (l.mergeSort (· ≤ ·)).length := by omega
  have hi2 : l.length / 2 < (l.mergeSort (· ≤ ·)).length := by omega
  rw [List.getD_eq_getElem _ _ hi1, List.getD_eq_getElem _ _ hi2]
  have hm1 := hbound _ ((List.mergeSort_perm l _).mem_iff.mp
    (List.getElem_mem hi1))
  have hm2 := hbound _ ((List.mergeSort_perm l _).mem_iff.mp
    (List.getElem_mem hi2))
  constructor <;> [linarith [hm1.1, hm2.1]; linarith [hm1.2, hm2.2]]

lemma mergeSort_map_one_sub (l : List ℚ) :
    (l.map (fun x => 1 - x)).mergeSort (· ≤ ·) =
      ((l.mergeSort (· ≤ ·)).map (fun x => 1 - x)).reverse := by
  refine List.eq_of_perm_of_sorted (r := fun x y : ℚ => x ≤ y) ?_
    (List.sorted_mergeSort' _) ?_
  · refine ((List.mergeSort_perm (l.map (fun x => 1 - x))
        (fun a b => decide (a ≤ b))).trans
      (((List.mergeSort_perm l (fun a b => decide (a ≤ b))).map
        (fun x => 1 - x)).symm)).trans ?_
    exact (((l.mergeSort (· ≤ ·)).map (fun x => 1 - x)).reverse_perm).symm
  · rw [List.Sorted, List.pairwise_reverse, List.pairwise_map]
    have hs : (l.mergeSort (· ≤ ·)).Sorted (· ≤ ·) := List.sorted_mergeSort' l
    exact hs.imp (fun hab => by linarith)

lemma getD_reverse_eq {α : Type} (l : List α) (d : α) (i : ℕ) (h : i < l.length) :
    l.reverse.getD i d = l.getD (l.length - 1 - i) d := by
  rw [List.getD_eq_getElem _ _ (by simpa using h),
    List.getD_eq_getElem _ _ (by omega)]
  exact List.getElem_reverse _

lemma getD_map_eq {α β : Type} (f : α → β) (l : List α) (d : β) (d' : α) (i : ℕ)
    (h : i < l.length) : (l.map f).getD i d = f (l.getD i d') := by
  rw [List.getD_eq_getElem _ _ (by simpa using h), List.getD_eq_getElem _ _ h,
    List.getElem_map]

lemma npMedian_one_sub {l : List ℚ} (hne : l ≠ []) :
    npMedian (l.map (fun x => 1 - x)) = 1 - npMedian l := by
  have hlen : 0 < l.length := List.length_pos.mpr hne
  have hslen : (l.mergeSort (· ≤ ·)).length = l.length := List.length_mergeSort l
  have hmslen : (((l.mergeSort (· ≤ ·)).map (fun x => 1 - x))).length = l.length := by
    rw [List.length_map, hslen]
  unfold npMedian
  dsimp only
  rw [List.length_map, mergeSort_map_one_sub]
  rw [getD_reverse_eq _ _ _ (by omega : (l.length - 1) / 2 <
    (((l.mergeSort (· ≤ ·)).map (fun x => 1 - x))).length)]
  rw [getD_reverse_eq _ _ _ (by omega : l.length / 2 <
    (((l.mergeSort (· ≤ ·)).map (fun x => 1 - x))).length)]
  rw [hmslen]
  rw [show l.length - 1 - (l.length - 1) / 2 = l.length / 2 by omega]
  rw [show l.length - 1 - l.length / 2 = (l.length - 1) / 2 by omega]
  rw [getD_map_eq _ _ _ 0 _ (by omega : l.length / 2 < (l.mergeSort (· ≤ ·)).length)]
  rw [getD_map_eq _ _ _ 0 _ (by omega : (l.length - 1) / 2 < (l.mergeSort (· ≤ ·)).length)]
  ring

lemma emEstep_row_spec {n : ℕ} {Ptr qs row : Fin n → ℚ} (hPtr : ∀ k, 0 < Ptr k)
    (hq : ∀ k, 0 ≤ qs k) (hrow : ∀ k, 0 ≤ row k) (k0 : Fin n)
    (hk0 : 0 < row k0 ∧ 0 < qs k0) :
    0 < (∑ k, (qs k / Ptr k) * row k) ∧
    IsPostRow (fun j => ((qs j / Ptr j) * row j) / (∑ k, (qs k / Ptr k) * row k)) ∧
    0 < ((qs k0 / Ptr k0) * row k0) / (∑ k, (qs k / Ptr k) * row k) := by
  have hwnn : ∀ k, 0 ≤ (qs k / Ptr k) * row k := fun k =>
    mul_nonneg (div_nonneg (hq k) (hPtr k).le) (hrow k)
  have hwpos : 0 < (qs k0 / Ptr k0) * row k0 :=
    mul_pos (div_pos hk0.2 (hPtr k0)) hk0.1
  have hsum : 0 < (∑ k, (qs k / Ptr k) * row k) :=
    Finset.sum_pos' (fun k _ => hwnn k) ⟨k0, Finset.mem_univ k0, hwpos⟩
  refine ⟨hsum, ⟨fun j => div_nonneg (hwnn j) hsum.le, ?_⟩, div_pos hwpos hsum⟩
  rw [← Finset.sum_div]
  exact div_self hsum.ne'

lemma emEstep_rows_valid {n : ℕ} {Ptr qs : Fin n → ℚ} {Px : List (Fin n → ℚ)}
    (hPtr : ∀ k, 0 < Ptr k) (hq : ∀ k, 0 ≤ qs k)
    (hrows : ∀ row ∈ Px, IsPostRow row)
    (hlive : ∀ row ∈ Px, ∃ k, 0 < row k ∧ 0 < qs k) :
    ∀ r ∈ emEstep Ptr qs Px, IsPostRow r := by
  intro r hr
  obtain ⟨row, hrowmem, rfl⟩ := List.mem_map.mp hr
  obtain ⟨k0, hk0⟩ := hlive row hrowmem
  exact (emEstep_row_spec hPtr hq (hrows row hrowmem).1 k0 hk0).2.1

lemma emMstep_eq_PCC {n : ℕ} (ps : List (Fin n → ℚ)) :
    emMstep ps = PCC_aggregate ps := rfl

lemma emIter_isPrev {n : ℕ} {Ptr qs : Fin n → ℚ} {Px : List (Fin n → ℚ)}
    (hPtr : ∀ k, 0 < Ptr k) (hq : ∀ k, 0 ≤ qs k) (hne : Px ≠ [])
    (hrows : ∀ row ∈ Px, IsPostRow row)
    (hlive : ∀ row ∈ Px, ∃ k, 0 < row k ∧ 0 < qs k) :
    IsPrevVector (emIter Ptr Px qs) := by
  rw [emIter, emMstep_eq_PCC]
  refine PCC_isPrev _ ?_ (emEstep_rows_valid hPtr hq hrows hlive)
  unfold emEstep
  simpa using hne

lemma emIter_live {n : ℕ} {Ptr qs : Fin n → ℚ} {Px : List (Fin n → ℚ)}
    (hPtr : ∀ k, 0 < Ptr k) (hq : ∀ k, 0 ≤ qs k) (hne : Px ≠ [])
    (hrows : ∀ row ∈ Px, IsPostRow row)
    (hlive : ∀ row ∈ Px, ∃ k, 0 < row k ∧ 0 < qs k) :
    ∀ row ∈ Px, ∃ k, 0 < row k ∧ 0 < emIter Ptr Px qs k := by
  intro row hrowmem
  obtain ⟨k0, hk0⟩ := hlive row hrowmem
  refine ⟨k0, hk0.1, ?_⟩
  have hlen : (0 : ℚ) < ((emEstep Ptr qs Px).length : ℚ) := by
    have : (emEstep Ptr qs Px).length = Px.length := List.length_map _ _
    rw [this]
    exact_mod_cast List.length_pos.mpr hne
  have hval : ∀ x ∈ (emEstep Ptr qs Px).map (fun r => r k0), 0 ≤ x := by
    intro x hx
    obtain ⟨r, hrmem, rfl⟩ := List.mem_map.mp hx
    exact ((emEstep_rows_valid hPtr hq hrows hlive) r hrmem).1 k0
  have hmem : (fun j => ((qs j / Ptr j) * row j) / (∑ k, (qs k / Ptr k) * row k)) ∈
      emEstep Ptr qs Px := List.mem_map_of_mem _ hrowmem
  have hpos : 0 < ((qs k0 / Ptr k0) * row k0) / (∑ k, (qs k / Ptr k) * row k) :=
    (emEstep_row_spec hPtr hq (hrows row hrowmem).1 k0 hk0).2.2
  have hsumpos : 0 < ((emEstep Ptr qs Px).map (fun r => r k0)).sum := by
    have hle := List.single_le_sum hval _
      (List.mem_map_of_mem (fun r => r k0) hmem)
    exact lt_of_lt_of_le hpos hle
  show 0 < emIter Ptr Px qs k0
  rw [emIter]
  show 0 < ((emEstep Ptr qs Px).map (fun r => r k0)).sum /
    ((emEstep Ptr qs Px).length : ℚ)
  exact div_pos hsumpos hlen

lemma emSeq_invariant {n : ℕ} {Ptr : Fin n → ℚ} {Px : List (Fin n → ℚ)}
    (hPtr : ∀ k, 0 < Ptr k) (hne : Px ≠ [])
    (hrows : ∀ row ∈ Px, IsPostRow row) :
    ∀ m, (∀ k, 0 ≤ emSeq Ptr Px m k) ∧
      (∀ row ∈ Px, ∃ k, 0 < row k ∧ 0 < emSeq Ptr Px m k) := by
  intro m
  induction m with
  | zero =>
    refine ⟨fun k => (hPtr k).le, fun row hrow => ?_⟩
    obtain ⟨k, hk⟩ := exists_pos_of_sum_eq_one (hrows row hrow).2
    exact ⟨k, hk, hPtr k⟩
  | succ m ih =>
    constructor
    · exact (emIter_isPrev hPtr ih.1 hne hrows ih.2).1
    · exact emIter_live hPtr ih.1 hne hrows ih.2

lemma emSeq_isPrev_succ {n : ℕ} {Ptr : Fin n → ℚ} {Px : List (Fin n → ℚ)}
    (hPtr : ∀ k, 0 < Ptr k) (hne : Px ≠ [])
    (hrows : ∀ row ∈ Px, IsPostRow row) (m : ℕ) :
    IsPrevVector (emSeq Ptr Px (m + 1)) :=
  emIter_isPrev hPtr (emSeq_invariant hPtr hne hrows m).1 hne hrows
    (emSeq_invariant hPtr hne hrows m).2

lemma EMQ_EM_isPrev {n : ℕ} {Ptr : Fin n → ℚ} {Px : List (Fin n → ℚ)}
    (eps : ℚ) (hPtr : ∀ k, 0 < Ptr k) (hne : Px ≠ [])
    (hrows : ∀ row ∈ Px, IsPostRow row) :
    IsPrevVector (EMQ_EM Ptr Px eps).prevs := by
  have h := emLoop_characterization Ptr Px eps EMQ_MAX_ITER 0
  have hEM : EMQ_EM Ptr Px eps = emLoop Ptr Px eps EMQ_MAX_ITER 0 (emSeq Ptr Px 0) := rfl
  rw [← hEM] at h
  obtain ⟨h1, h2, h3⟩ := h
  have hge : 1 ≤ (EMQ_EM Ptr Px eps).iters := by
    rcases hb : (EMQ_EM Ptr Px eps).converged
    · have := (h3 hb).1
      simp only [EMQ_MAX_ITER] at this
      omega
    · have := (h2 hb).1
      omega
  rw [h1, show (EMQ_EM Ptr Px eps).iters = ((EMQ_EM Ptr Px eps).iters - 1) + 1 by omega]
  exact emSeq_isPrev_succ hPtr hne hrows _

lemma aggregate_with_threshold_comp1 (ts : List ℚ) (tpr fpr t : ℚ) :
    aggregate_with_threshold ts tpr fpr t 1 =
      clip01 ((((ts.filter (fun x => decide (t ≤ x))).length : ℚ) /
        (ts.length : ℚ) - fpr) / (tpr - fpr)) := rfl

lemma aggregate_with_threshold_comp0 (ts : List ℚ) (tpr fpr t : ℚ) :
    aggregate_with_threshold ts tpr fpr t 0 =
      1 - aggregate_with_threshold ts tpr fpr t 1 := rfl

lemma aggregate_with_threshold_isPrev (ts : List ℚ) (tpr fpr t : ℚ) :
    IsPrevVector (aggregate_with_threshold ts tpr fpr t) := by
  unfold aggregate_with_threshold
  exact as_binary_prevalence_clip_isPrev _

lemma evalCandidateThresholds_ne_nil (discard : ℚ → ℚ → Bool)
    (cond : ℚ → ℚ → ℚ) (scores : List ℚ) (y : List Bool) :
    evalCandidateThresholds discard cond scores y ≠ [] := by
  unfold evalCandidateThresholds
  dsimp only
  intro hcon
  have hlen := congrArg List.length hcon
  rw [List.length_mergeSort] at hlen
  split_ifs at hlen with hs
  · simp at hlen
  · exact hs (List.length_eq_zero.mp (by simpa using hlen))

lemma evalCandidateThresholds_no_degenerate {discard : ℚ → ℚ → Bool}
    (cond : ℚ → ℚ → ℚ) (scores : List ℚ) (y : List Bool)
    (hd : ∀ a b, discard a b = false → a ≠ b) :
    ∀ c ∈ evalCandidateThresholds discard cond scores y, c.1 ≠ c.2.1 := by
  intro c hc
  unfold evalCandidateThresholds at hc
  dsimp only at hc
  rw [(List.mergeSort_perm _ _).mem_iff] at hc
  split_ifs at hc with hs
  · simp only [List.mem_singleton] at hc
    rw [hc]
    norm_num
  · obtain ⟨t, _, hf⟩ := List.mem_filterMap.mp hc
    by_cases hdt : discard (tprAt scores y t) (fprAt scores y t) = true
    · rw [if_pos hdt] at hf
      exact absurd hf (by simp)
    · rw [if_neg hdt] at hf
      injection hf with hf
      rw [← hf]
      exact hd _ _ (by simpa using hdt)

lemma MS_aggregate_isPrev (ts : List ℚ) (cands : List (ℚ × ℚ × ℚ))
    (hne : cands ≠ []) : IsPrevVector (MS_aggregate ts cands) := by
  have hmapne : cands.map (fun c => aggregate_with_threshold ts c.1 c.2.1 c.2.2 1) ≠ [] := by
    simpa using hne
  have hbound : ∀ x ∈ cands.map (fun c => aggregate_with_threshold ts c.1 c.2.1 c.2.2 1),
      0 ≤ x ∧ x ≤ 1 := by
    intro x hx
    obtain ⟨c, _, rfl⟩ := List.mem_map.mp hx
    rw [aggregate_with_threshold_comp1]
    exact ⟨clip01_nonneg _, clip01_le_one _⟩
  have hmed := npMedian_mem_Icc hmapne hbound
  have hmap0 : cands.map (fun c => aggregate_with_threshold ts c.1 c.2.1 c.2.2 0) =
      (cands.map (fun c => aggregate_with_threshold ts c.1 c.2.1 c.2.2 1)).map
        (fun x => 1 - x) := by
    rw [List.map_map]
    exact List.map_congr_left (fun c _ => aggregate_with_threshold_comp0 ts c.1 c.2.1 c.2.2)
  constructor
  · intro i
    fin_cases i
    · show 0 ≤ MS_aggregate ts cands 0
      unfold MS_aggregate
      rw [hmap0, npMedian_one_sub hmapne]
      linarith [hmed.2]
    · show 0 ≤ MS_aggregate ts cands 1
      unfold MS_aggregate
      exact hmed.1
  · rw [Fin.sum_univ_two]
    show MS_aggregate ts cands 0 + MS_aggregate ts cands 1 = 1
    unfold MS_aggregate
    rw [hmap0, npMedian_one_sub hmapne]
    ring

lemma prevalence_linspace101_ne_nil : prevalence_linspace101 ≠ [] := by
  unfold prevalence_linspace101
  simp

lemma HDy_aggregate_isPrev (dist : ℕ → ℚ → ℚ) :
    IsPrevVector (HDy_aggregate dist) := by
  unfold HDy_aggregate
  have hbins : hdyBins.map (fun b =>
      (argminScan (dist b) prevalence_linspace101).getD 0) ≠ [] := by
    simp [hdyBins]
  have hbound : ∀ x ∈ hdyBins.map (fun b =>
      (argminScan (dist b) prevalence_linspace101).getD 0), 0 ≤ x ∧ x ≤ 1 := by
    intro x hx
    obtain ⟨b, _, rfl⟩ := List.mem_map.mp hx
    obtain ⟨v, hv, hvmem⟩ := argminScan_mem (dist b) prevalence_linspace101
      prevalence_linspace101_ne_nil
    rw [hv]
    exact prevalence_linspace101_mem hvmem
  have hmed := npMedian_mem_Icc hbins hbound
  exact as_binary_prevalence_isPrev _ hmed.1 hmed.2

lemma DyS_aggregate_isPrev (f : ℚ → ℚ) (tol : ℚ) (fuel : ℕ) :
    IsPrevVector (DyS_aggregate f tol fuel) := by
  unfold DyS_aggregate
  have h := ternarySearch_mem_unit f tol fuel 0 1 (le_refl 0) (by norm_num)
    (le_refl 1)
  exact as_binary_prevalence_isPrev _ h.1 h.2

lemma SMM_aggregate_isPrev (m1 m0 mt : ℚ) :
    IsPrevVector (SMM_aggregate m1 m0 mt) := by
  unfold SMM_aggregate
  exact as_binary_prevalence_clip_isPrev _

lemma DMy_aggregate_isPrev {n : ℕ} (loss : (Fin n → ℚ) → ℚ)
    (cands : List (Fin n → ℚ)) (hne : cands ≠ [])
    (hval : ∀ v ∈ cands, IsPrevVector v) :
    IsPrevVector (DMy_aggregate loss cands) := by
  unfold DMy_aggregate argmin_prevalence
  obtain ⟨v, hv, hvmem⟩ := argminScan_mem loss cands hne
  rw [hv]
  exact hval v hvmem

lemma thresholdAggregationFit_mem (discard : ℚ → ℚ → Bool) (cond : ℚ → ℚ → ℚ)
    (scores : List ℚ) (y : List Bool) :
    thresholdAggregationFit discard cond scores y ∈
      evalCandidateThresholds discard cond scores y := by
  unfold thresholdAggregationFit
  rcases hl : evalCandidateThresholds discard cond scores y with _ | ⟨c, t⟩
  · exact absurd hl (evalCandidateThresholds_ne_nil discard cond scores y)
  · simp

lemma emIter_c1_init :
    emIter ![(1:ℚ), 0] [![(0:ℚ), 1]] ![(1:ℚ), 0] = ![(0:ℚ), 0] := by
  funext j
  fin_cases j <;>
    simp [emIter, emMstep, emEstep, Fin.sum_univ_two]

lemma emIter_c1_zero :
    emIter ![(1:ℚ), 0] [![(0:ℚ), 1]] ![(0:ℚ), 0] = ![(0:ℚ), 0] := by
  funext j
  fin_cases j <;>
    simp [emIter, emMstep, emEstep, Fin.sum_univ_two]

lemma emSeq_c1_succ (k : ℕ) :
    emSeq ![(1:ℚ), 0] [![(0:ℚ), 1]] (k + 1) = ![(0:ℚ), 0] := by
  induction k with
  | zero => rw [emSeq, emSeq, emIter_c1_init]
  | succ k ih => rw [emSeq, ih, emIter_c1_zero]

/-- C1 (counterexample): an `EMQ` quantifier fitted on training data whose
second class is absent has training prevalence `[1, 0]`, a valid prevalence
vector; the posterior row `[0, 1]` is a valid posterior.  On this
numerically degenerate input the source divides by the zero training
prevalence (`qs / Ptr` gives `nan` in numpy); in the exact embedding
(`x / 0 = 0`) the running estimate collapses to `[0, 0]`, and the vector
returned by `aggregate` has entries summing to 0, not 1 — in either
semantics the output violates the prevalence-vector invariant. -/
theorem C1_counterexample_emq_degenerate :
    IsPostRow ![(0:ℚ), 1] ∧
    (∑ k, (![(1:ℚ), 0]) k) = 1 ∧
    (EMQ_EM ![(1:ℚ), 0] [![(0:ℚ), 1]] EMQ_EPSILON).prevs = ![(0:ℚ), 0] ∧
    ¬ IsPrevVector (EMQ_EM ![(1:ℚ), 0] [![(0:ℚ), 1]] EMQ_EPSILON).prevs := by
  have hprevs : (EMQ_EM ![(1:ℚ), 0] [![(0:ℚ), 1]] EMQ_EPSILON).prevs = ![(0:ℚ), 0] := by
    have h := emLoop_characterization ![(1:ℚ), 0] [![(0:ℚ), 1]] EMQ_EPSILON
      EMQ_MAX_ITER 0
    have hEM : EMQ_EM ![(1:ℚ), 0] [![(0:ℚ), 1]] EMQ_EPSILON =
        emLoop ![(1:ℚ), 0] [![(0:ℚ), 1]] EMQ_EPSILON EMQ_MAX_ITER 0
          (emSeq ![(1:ℚ), 0] [![(0:ℚ), 1]] 0) := rfl
    rw [← hEM] at h
    obtain ⟨h1, h2, h3⟩ := h
    have hge : 1 ≤ (EMQ_EM ![(1:ℚ), 0] [![(0:ℚ), 1]] EMQ_EPSILON).iters := by
      rcases hb : (EMQ_EM ![(1:ℚ), 0] [![(0:ℚ), 1]] EMQ_EPSILON).converged
      · have := (h3 hb).1
        simp only [EMQ_MAX_ITER] at this
        omega
      · have := (h2 hb).1
        omega
    rw [h1, show (EMQ_EM ![(1:ℚ), 0] [![(0:ℚ), 1]] EMQ_EPSILON).iters =
      ((EMQ_EM ![(1:ℚ), 0] [![(0:ℚ), 1]] EMQ_EPSILON).iters - 1) + 1 by omega]
    exact emSeq_c1_succ _
  refine ⟨⟨fun i => by fin_cases i <;> norm_num, by rw [Fin.sum_univ_two]; norm_num⟩,
    by rw [Fin.sum_univ_two]; norm_num, hprevs, ?_⟩
  rw [hprevs]
  rintro ⟨-, hsum⟩
  rw [Fin.sum_univ_two] at hsum
  norm_num at hsum

/-- C1 (amended): for every fitted aggregative quantifier, the vector
returned by `aggregate` has entries in `[0,1]` summing (exactly, in the
rational embedding) to 1, under these non-degeneracy provisos: the test
sample is non-empty and its predictions/posteriors are valid; the fitted
confusion estimate is column-stochastic (C7 proves the fitted estimates
are); `EMQ`/`EMQrecalib` additionally requires a strictly positive training
prevalence (the counterexample shows a zero entry breaks the invariant);
`SMM` requires distinct class-conditional means (the denominator of its
closed form); One-vs-All requires positive total mass.  The threshold
family's fitted `(tpr, fpr, threshold)` always has `tpr ≠ fpr` (the
`discard` step plus the default `(1, 0, 0)`), and HDy, DyS, and DMy are
covered for every divergence score function. -/
theorem C1_aggregate_prevalence_invariant_amended :
    (∀ (n : ℕ) (preds : List (Fin n)), preds ≠ [] →
      IsPrevVector (CC_aggregate preds)) ∧
    (∀ (n : ℕ) (P : List (Fin n → ℚ)), P ≠ [] → (∀ row ∈ P, IsPostRow row) →
      IsPrevVector (PCC_aggregate P)) ∧
    (∀ (n : ℕ) (A : Matrix (Fin n) (Fin n) ℚ) (preds : List (Fin n)),
      ColStochastic A → preds ≠ [] → IsPrevVector (ACC_aggregate A preds)) ∧
    (∀ (n : ℕ) (A : Matrix (Fin n) (Fin n) ℚ) (P : List (Fin n → ℚ)),
      ColStochastic A → P ≠ [] → (∀ row ∈ P, IsPostRow row) →
      IsPrevVector (PACC_aggregate A P)) ∧
    (∀ (n : ℕ) (Ptr : Fin n → ℚ) (Px : List (Fin n → ℚ)) (eps : ℚ),
      (∀ k, 0 < Ptr k) → Px ≠ [] → (∀ row ∈ Px, IsPostRow row) →
      IsPrevVector (EMQ_EM Ptr Px eps).prevs) ∧
    (∀ (discard : ℚ → ℚ → Bool) (cond : ℚ → ℚ → ℚ) (scores ts : List ℚ)
        (y : List Bool), (∀ a b, discard a b = false → a ≠ b) →
      (thresholdAggregationFit discard cond scores y).1 ≠
        (thresholdAggregationFit discard cond scores y).2.1 ∧
      IsPrevVector (aggregate_with_threshold ts
        (thresholdAggregationFit discard cond scores y).1
        (thresholdAggregationFit discard cond scores y).2.1
        (thresholdAggregationFit discard cond scores y).2.2)) ∧
    (∀ (discard : ℚ → ℚ → Bool) (cond : ℚ → ℚ → ℚ) (scores ts : List ℚ)
        (y : List Bool),
      IsPrevVector (MS_aggregate ts (evalCandidateThresholds discard cond scores y))) ∧
    (∀ dist : ℕ → ℚ → ℚ, IsPrevVector (HDy_aggregate dist)) ∧
    (∀ (f : ℚ → ℚ) (tol : ℚ) (fuel : ℕ), IsPrevVector (DyS_aggregate f tol fuel)) ∧
    (∀ m1 m0 mt : ℚ, m1 ≠ m0 → IsPrevVector (SMM_aggregate m1 m0 mt)) ∧
    (∀ (n : ℕ) (pos : Fin n → ℚ), (∀ c, 0 ≤ pos c) → 0 < (∑ c, pos c) →
      IsPrevVector (OneVsAll_aggregate pos)) ∧
    (∀ (n : ℕ) (loss : (Fin n → ℚ) → ℚ) (cands : List (Fin n → ℚ)),
      cands ≠ [] → (∀ v ∈ cands, IsPrevVector v) →
      IsPrevVector (DMy_aggregate loss cands)) := by
  refine ⟨fun n preds h => CC_isPrev preds h,
    fun n P h hr => PCC_isPrev P h hr,
    fun n A preds hA h => solve_adjustment_isPrev hA (CC_isPrev preds h),
    fun n A P hA h hr => solve_adjustment_isPrev hA (PCC_isPrev P h hr),
    fun n Ptr Px eps hPtr hne hrows => EMQ_EM_isPrev eps hPtr hne hrows,
    fun discard cond scores ts y hd => ?_,
    fun discard cond scores ts y =>
      MS_aggregate_isPrev ts _ (evalCandidateThresholds_ne_nil discard cond scores y),
    HDy_aggregate_isPrev,
    DyS_aggregate_isPrev,
    fun m1 m0 mt _ => SMM_aggregate_isPrev m1 m0 mt,
    fun n pos hnn hpos => normalizeVec_isPrev hnn hpos,
    fun n loss cands hne hval => DMy_aggregate_isPrev loss cands hne hval⟩
  exact ⟨evalCandidateThresholds_no_degenerate cond scores y hd _
      (thresholdAggregationFit_mem discard cond scores y),
    aggregate_with_threshold_isPrev ts _ _ _⟩

/-- Witness for C1 (amended): the EMQ clause at the concrete fitted state
with training prevalence `[1/2, 1/2]` and posterior matrix `[[1/2, 1/2]]`,
and the CC clause at the concrete prediction list `[0, 1]`. -/
theorem C1_aggregate_prevalence_witness :
    IsPrevVector (EMQ_EM ![(1:ℚ)/2, 1/2] [![(1:ℚ)/2, 1/2]] EMQ_EPSILON).prevs ∧
    IsPrevVector (CC_aggregate [(0 : Fin 2), 1]) := by
  constructor
  · refine C1_aggregate_prevalence_invariant_amended.2.2.2.2.1 2
      ![(1:ℚ)/2, 1/2] [![(1:ℚ)/2, 1/2]] EMQ_EPSILON
      (fun k => by fin_cases k <;> norm_num) (by simp) ?_
    intro row hrow
    simp only [List.mem_singleton] at hrow
    subst hrow
    exact ⟨fun i => by fin_cases i <;> norm_num, by rw [Fin.sum_univ_two]; norm_num⟩
  · exact C1_aggregate_prevalence_invariant_amended.1 2 [0, 1] (by simp)
